import Mathlib

/-!
A shallow embedding of `cooklang.py` (the Cooklang recipe-markup parser) and
proofs about it.  Text is modeled as `List Char`; every regular expression of
the source is translated into an explicit scanner implementing exactly that
pattern's backtracking behaviour; Python `int`/`float`/`Fraction` string
parsing is modeled by explicit checkers, with `float` values represented as
exact rationals; exceptions become an explicit error type `PErr`.
Recursive scanners take a fuel argument (always called with
`length + 1`, which suffices since every step consumes at least one
character) so that all definitions reduce computationally.
-/

deriving instance DecidableEq for Except

namespace Cooklang

/-- The code points Python treats as whitespace (`str.isspace`, which also
governs `str.strip`, the whitespace `int`/`float`/`Fraction` accept, and
`\s` in `re` patterns).  Generated from CPython. -/
def pySpaceCodes : List ℕ :=
  [9, 10, 11, 12, 13, 28, 29, 30, 31, 32, 133, 160, 5760, 8192, 8193, 8194, 8195, 8196, 8197, 8198, 8199, 8200, 8201, 8202, 8232, 8233, 8239, 8287, 12288]

/-- A character Python's `str.strip` removes. -/
def isPySpace (c : Char) : Bool := pySpaceCodes.contains c.toNat

/-- The first code points of the 66 decades of Unicode decimal digits
(category Nd): each start has decimal value 0 and the nine following code
points have values 1 through 9.  These are exactly the digit characters
`int`, `float` and `Fraction` accept.  Generated from CPython. -/
def ndDecadeStarts : List ℕ :=
  [48, 1632, 1776, 1984, 2406, 2534, 2662, 2790, 2918, 3046, 3174, 3302,
   3430, 3558, 3664, 3792, 3872, 4160, 4240, 6112, 6160, 6470, 6608, 6784,
   6800, 6992, 7088, 7232, 7248, 42528, 43216, 43264, 43472, 43504, 43600,
   44016, 65296, 66720, 68912, 69734, 69872, 69942, 70096, 70384, 70736,
   70864, 71248, 71360, 71472, 71904, 72016, 72784, 73040, 73120, 92768,
   92864, 93008, 120782, 120792, 120802, 120812, 120822, 123200, 123632,
   125264, 130032]

/-- The decimal value of a character, when it is a Unicode decimal digit. -/
def pyDigit? (c : Char) : Option ℕ :=
  ndDecadeStarts.findSome?
    (fun s => if s ≤ c.toNat ∧ c.toNat ≤ s + 9 then some (c.toNat - s) else none)

/-- The inclusive code-point ranges of the non-ASCII characters matched by
Python's Unicode-aware `\w` (equivalently: `str.isalnum` or underscore;
the two sets are identical in CPython).  Generated from CPython's `re`. -/
def wordRangesHi : List (ℕ × ℕ) :=
  [(170, 170), (178, 179), (181, 181), (185, 186), (188, 190), (192, 214),
   (216, 246), (248, 705), (710, 721), (736, 740), (748, 748), (750, 750),
   (880, 884), (886, 887), (890, 893), (895, 895), (902, 902), (904, 906),
   (908, 908), (910, 929), (931, 1013), (1015, 1153), (1162, 1327), (1329,
   1366), (1369, 1369), (1376, 1416), (1488, 1514), (1519, 1522), (1568,
   1610), (1632, 1641), (1646, 1647), (1649, 1747), (1749, 1749), (1765,
   1766), (1774, 1788), (1791, 1791), (1808, 1808), (1810, 1839), (1869,
   1957), (1969, 1969), (1984, 2026), (2036, 2037), (2042, 2042), (2048,
   2069), (2074, 2074), (2084, 2084), (2088, 2088), (2112, 2136), (2144,
   2154), (2160, 2183), (2185, 2190), (2208, 2249), (2308, 2361), (2365,
   2365), (2384, 2384), (2392, 2401), (2406, 2415), (2417, 2432), (2437,
   2444), (2447, 2448), (2451, 2472), (2474, 2480), (2482, 2482), (2486,
   2489), (2493, 2493), (2510, 2510), (2524, 2525), (2527, 2529), (2534,
   2545), (2548, 2553), (2556, 2556), (2565, 2570), (2575, 2576), (2579,
   2600), (2602, 2608), (2610, 2611), (2613, 2614), (2616, 2617), (2649,
   2652), (2654, 2654), (2662, 2671), (2674, 2676), (2693, 2701), (2703,
   2705), (2707, 2728), (2730, 2736), (2738, 2739), (2741, 2745), (2749,
   2749), (2768, 2768), (2784, 2785), (2790, 2799), (2809, 2809), (2821,
   2828), (2831, 2832), (2835, 2856), (2858, 2864), (2866, 2867), (2869,
   2873), (2877, 2877), (2908, 2909), (2911, 2913), (2918, 2927), (2929,
   2935), (2947, 2947), (2949, 2954), (2958, 2960), (2962, 2965), (2969,
   2970), (2972, 2972), (2974, 2975), (2979, 2980), (2984, 2986), (2990,
   3001), (3024, 3024), (3046, 3058), (3077, 3084), (3086, 3088), (3090,
   3112), (3114, 3129), (3133, 3133), (3160, 3162), (3165, 3165), (3168,
   3169), (3174, 3183), (3192, 3198), (3200, 3200), (3205, 3212), (3214,
   3216), (3218, 3240), (3242, 3251), (3253, 3257), (3261, 3261), (3293,
   3294), (3296, 3297), (3302, 3311), (3313, 3314), (3332, 3340), (3342,
   3344), (3346, 3386), (3389, 3389), (3406, 3406), (3412, 3414), (3416,
   3425), (3430, 3448), (3450, 3455), (3461, 3478), (3482, 3505), (3507,
   3515), (3517, 3517), (3520, 3526), (3558, 3567), (3585, 3632), (3634,
   3635), (3648, 3654), (3664, 3673), (3713, 3714), (3716, 3716), (3718,
   3722), (3724, 3747), (3749, 3749), (3751, 3760), (3762, 3763), (3773,
   3773), (3776, 3780), (3782, 3782), (3792, 3801), (3804, 3807), (3840,
   3840), (3872, 3891), (3904, 3911), (3913, 3948), (3976, 3980), (4096,
   4138), (4159, 4169), (4176, 4181), (4186, 4189), (4193, 4193), (4197,
   4198), (4206, 4208), (4213, 4225), (4238, 4238), (4240, 4249), (4256,
   4293), (4295, 4295), (4301, 4301), (4304, 4346), (4348, 4680), (4682,
   4685), (4688, 4694), (4696, 4696), (4698, 4701), (4704, 4744), (4746,
   4749), (4752, 4784), (4786, 4789), (4792, 4798), (4800, 4800), (4802,
   4805), (4808, 4822), (4824, 4880), (4882, 4885), (4888, 4954), (4969,
   4988), (4992, 5007), (5024, 5109), (5112, 5117), (5121, 5740), (5743,
   5759), (5761, 5786), (5792, 5866), (5870, 5880), (5888, 5905), (5919,
   5937), (5952, 5969), (5984, 5996), (5998, 6000), (6016, 6067), (6103,
   6103), (6108, 6108), (6112, 6121), (6128, 6137), (6160, 6169), (6176,
   6264), (6272, 6276), (6279, 6312), (6314, 6314), (6320, 6389), (6400,
   6430), (6470, 6509), (6512, 6516), (6528, 6571), (6576, 6601), (6608,
   6618), (6656, 6678), (6688, 6740), (6784, 6793), (6800, 6809), (6823,
   6823), (6917, 6963), (6981, 6988), (6992, 7001), (7043, 7072), (7086,
   7141), (7168, 7203), (7232, 7241), (7245, 7293), (7296, 7304), (7312,
   7354), (7357, 7359), (7401, 7404), (7406, 7411), (7413, 7414), (7418,
   7418), (7424, 7615), (7680, 7957), (7960, 7965), (7968, 8005), (8008,
   8013), (8016, 8023), (8025, 8025), (8027, 8027), (8029, 8029), (8031,
   8061), (8064, 8116), (8118, 8124), (8126, 8126), (8130, 8132), (8134,
   8140), (8144, 8147), (8150, 8155), (8160, 8172), (8178, 8180), (8182,
   8188), (8304, 8305), (8308, 8313), (8319, 8329), (8336, 8348), (8450,
   8450), (8455, 8455), (8458, 8467), (8469, 8469), (8473, 8477), (8484,
   8484), (8486, 8486), (8488, 8488), (8490, 8493), (8495, 8505), (8508,
   8511), (8517, 8521), (8526, 8526), (8528, 8585), (9312, 9371), (9450,
   9471), (10102, 10131), (11264, 11492), (11499, 11502), (11506, 11507),
   (11517, 11517), (11520, 11557), (11559, 11559), (11565, 11565), (11568,
   11623), (11631, 11631), (11648, 11670), (11680, 11686), (11688, 11694),
   (11696, 11702), (11704, 11710), (11712, 11718), (11720, 11726), (11728,
   11734), (11736, 11742), (11823, 11823), (12293, 12295), (12321, 12329),
   (12337, 12341), (12344, 12348), (12353, 12438), (12445, 12447), (12449,
   12538), (12540, 12543), (12549, 12591), (12593, 12686), (12690, 12693),
   (12704, 12735), (12784, 12799), (12832, 12841), (12872, 12879), (12881,
   12895), (12928, 12937), (12977, 12991), (13312, 19903), (19968, 42124),
   (42192, 42237), (42240, 42508), (42512, 42539), (42560, 42606), (42623,
   42653), (42656, 42735), (42775, 42783), (42786, 42888), (42891, 42954),
   (42960, 42961), (42963, 42963), (42965, 42969), (42994, 43009), (43011,
   43013), (43015, 43018), (43020, 43042), (43056, 43061), (43072, 43123),
   (43138, 43187), (43216, 43225), (43250, 43255), (43259, 43259), (43261,
   43262), (43264, 43301), (43312, 43334), (43360, 43388), (43396, 43442),
   (43471, 43481), (43488, 43492), (43494, 43518), (43520, 43560), (43584,
   43586), (43588, 43595), (43600, 43609), (43616, 43638), (43642, 43642),
   (43646, 43695), (43697, 43697), (43701, 43702), (43705, 43709), (43712,
   43712), (43714, 43714), (43739, 43741), (43744, 43754), (43762, 43764),
   (43777, 43782), (43785, 43790), (43793, 43798), (43808, 43814), (43816,
   43822), (43824, 43866), (43868, 43881), (43888, 44002), (44016, 44025),
   (44032, 55203), (55216, 55238), (55243, 55291), (63744, 64109), (64112,
   64217), (64256, 64262), (64275, 64279), (64285, 64285), (64287, 64296),
   (64298, 64310), (64312, 64316), (64318, 64318), (64320, 64321), (64323,
   64324), (64326, 64433), (64467, 64829), (64848, 64911), (64914, 64967),
   (65008, 65019), (65136, 65140), (65142, 65276), (65296, 65305), (65313,
   65338), (65345, 65370), (65382, 65470), (65474, 65479), (65482, 65487),
   (65490, 65495), (65498, 65500), (65536, 65547), (65549, 65574), (65576,
   65594), (65596, 65597), (65599, 65613), (65616, 65629), (65664, 65786),
   (65799, 65843), (65856, 65912), (65930, 65931), (66176, 66204), (66208,
   66256), (66273, 66299), (66304, 66339), (66349, 66378), (66384, 66421),
   (66432, 66461), (66464, 66499), (66504, 66511), (66513, 66517), (66560,
   66717), (66720, 66729), (66736, 66771), (66776, 66811), (66816, 66855),
   (66864, 66915), (66928, 66938), (66940, 66954), (66956, 66962), (66964,
   66965), (66967, 66977), (66979, 66993), (66995, 67001), (67003, 67004),
   (67072, 67382), (67392, 67413), (67424, 67431), (67456, 67461), (67463,
   67504), (67506, 67514), (67584, 67589), (67592, 67592), (67594, 67637),
   (67639, 67640), (67644, 67644), (67647, 67669), (67672, 67702), (67705,
   67742), (67751, 67759), (67808, 67826), (67828, 67829), (67835, 67867),
   (67872, 67897), (67968, 68023), (68028, 68047), (68050, 68096), (68112,
   68115), (68117, 68119), (68121, 68149), (68160, 68168), (68192, 68222),
   (68224, 68255), (68288, 68295), (68297, 68324), (68331, 68335), (68352,
   68405), (68416, 68437), (68440, 68466), (68472, 68497), (68521, 68527),
   (68608, 68680), (68736, 68786), (68800, 68850), (68858, 68899), (68912,
   68921), (69216, 69246), (69248, 69289), (69296, 69297), (69376, 69415),
   (69424, 69445), (69457, 69460), (69488, 69505), (69552, 69579), (69600,
   69622), (69635, 69687), (69714, 69743), (69745, 69746), (69749, 69749),
   (69763, 69807), (69840, 69864), (69872, 69881), (69891, 69926), (69942,
   69951), (69956, 69956), (69959, 69959), (69968, 70002), (70006, 70006),
   (70019, 70066), (70081, 70084), (70096, 70106), (70108, 70108), (70113,
   70132), (70144, 70161), (70163, 70187), (70272, 70278), (70280, 70280),
   (70282, 70285), (70287, 70301), (70303, 70312), (70320, 70366), (70384,
   70393), (70405, 70412), (70415, 70416), (70419, 70440), (70442, 70448),
   (70450, 70451), (70453, 70457), (70461, 70461), (70480, 70480), (70493,
   70497), (70656, 70708), (70727, 70730), (70736, 70745), (70751, 70753),
   (70784, 70831), (70852, 70853), (70855, 70855), (70864, 70873), (71040,
   71086), (71128, 71131), (71168, 71215), (71236, 71236), (71248, 71257),
   (71296, 71338), (71352, 71352), (71360, 71369), (71424, 71450), (71472,
   71483), (71488, 71494), (71680, 71723), (71840, 71922), (71935, 71942),
   (71945, 71945), (71948, 71955), (71957, 71958), (71960, 71983), (71999,
   71999), (72001, 72001), (72016, 72025), (72096, 72103), (72106, 72144),
   (72161, 72161), (72163, 72163), (72192, 72192), (72203, 72242), (72250,
   72250), (72272, 72272), (72284, 72329), (72349, 72349), (72368, 72440),
   (72704, 72712), (72714, 72750), (72768, 72768), (72784, 72812), (72818,
   72847), (72960, 72966), (72968, 72969), (72971, 73008), (73030, 73030),
   (73040, 73049), (73056, 73061), (73063, 73064), (73066, 73097), (73112,
   73112), (73120, 73129), (73440, 73458), (73648, 73648), (73664, 73684),
   (73728, 74649), (74752, 74862), (74880, 75075), (77712, 77808), (77824,
   78894), (82944, 83526), (92160, 92728), (92736, 92766), (92768, 92777),
   (92784, 92862), (92864, 92873), (92880, 92909), (92928, 92975), (92992,
   92995), (93008, 93017), (93019, 93025), (93027, 93047), (93053, 93071),
   (93760, 93846), (93952, 94026), (94032, 94032), (94099, 94111), (94176,
   94177), (94179, 94179), (94208, 100343), (100352, 101589), (101632,
   101640), (110576, 110579), (110581, 110587), (110589, 110590), (110592,
   110882), (110928, 110930), (110948, 110951), (110960, 111355), (113664,
   113770), (113776, 113788), (113792, 113800), (113808, 113817), (119520,
   119539), (119648, 119672), (119808, 119892), (119894, 119964), (119966,
   119967), (119970, 119970), (119973, 119974), (119977, 119980), (119982,
   119993), (119995, 119995), (119997, 120003), (120005, 120069), (120071,
   120074), (120077, 120084), (120086, 120092), (120094, 120121), (120123,
   120126), (120128, 120132), (120134, 120134), (120138, 120144), (120146,
   120485), (120488, 120512), (120514, 120538), (120540, 120570), (120572,
   120596), (120598, 120628), (120630, 120654), (120656, 120686), (120688,
   120712), (120714, 120744), (120746, 120770), (120772, 120779), (120782,
   120831), (122624, 122654), (123136, 123180), (123191, 123197), (123200,
   123209), (123214, 123214), (123536, 123565), (123584, 123627), (123632,
   123641), (124896, 124902), (124904, 124907), (124909, 124910), (124912,
   124926), (124928, 125124), (125127, 125135), (125184, 125251), (125259,
   125259), (125264, 125273), (126065, 126123), (126125, 126127), (126129,
   126132), (126209, 126253), (126255, 126269), (126464, 126467), (126469,
   126495), (126497, 126498), (126500, 126500), (126503, 126503), (126505,
   126514), (126516, 126519), (126521, 126521), (126523, 126523), (126530,
   126530), (126535, 126535), (126537, 126537), (126539, 126539), (126541,
   126543), (126545, 126546), (126548, 126548), (126551, 126551), (126553,
   126553), (126555, 126555), (126557, 126557), (126559, 126559), (126561,
   126562), (126564, 126564), (126567, 126570), (126572, 126578), (126580,
   126583), (126585, 126588), (126590, 126590), (126592, 126601), (126603,
   126619), (126625, 126627), (126629, 126633), (126635, 126651), (127232,
   127244), (130032, 130041), (131072, 173791), (173824, 177976), (177984,
   178205), (178208, 183969), (183984, 191456), (194560, 195101), (196608,
   201546)]

/-- Models Python's Unicode-aware `\w`: on ASCII exactly letters, digits
and underscore; beyond ASCII the table above. -/
def isWordChar (c : Char) : Bool :=
  if c.toNat < 128 then c.isAlphanum || c = '_'
  else wordRangesHi.any (fun r => decide (r.1 ≤ c.toNat) && decide (c.toNat ≤ r.2))

/-- A character admitted inside a multi-word name: the class `[\w ]`. -/
def isNameChar (c : Char) : Bool := isWordChar c || c = ' '

/-- Models Python `str.strip()`. -/
def pyStrip (s : List Char) : List Char :=
  ((s.dropWhile isPySpace).reverse.dropWhile isPySpace).reverse

/-- Models Python `s.split("\n")`. -/
def splitNl : List Char → List (List Char)
  | [] => [[]]
  | c :: rest =>
    if c = '\n' then [] :: splitNl rest
    else
      match splitNl rest with
      | [] => [[c]]
      | l :: ls => (c :: l) :: ls

/-- Indices (from the given offset) of every occurrence of `-]` in a line;
used to realise the greedy `.*-\]`, which matches up to the last one. -/
def closePositions : List Char → ℕ → List ℕ
  | [], _ => []
  | a :: rest, i =>
    if a = '-' ∧ rest.head? = some ']' then i :: closePositions rest (i + 1)
    else closePositions rest (i + 1)

/-- A comment match at the current position (line 121), trying the two
alternatives of `(--[^\n]+|\[-.*-\])` in order: `--` followed by at least one
non-newline character removes greedily to the end of the line; `[-` followed
by the greedy newline-free `.*` and `-]` removes up to the last `-]` on the
line (and fails when the line has none).  Returns the rest of the input
after the removed match; matches never contain a newline. -/
def commentMatch (s : List Char) : Option (List Char) :=
  match s with
  | '-' :: '-' :: c :: rest =>
    if c = '\n' then none
    else some ((c :: rest).dropWhile (fun d => d ≠ '\n'))
  | '[' :: '-' :: rest =>
    (match (closePositions (rest.takeWhile (fun d => d ≠ '\n')) 0).getLast? with
     | some i => some (rest.drop (i + 2))
     | none => none)
  | _ => none

/-- Models `re.sub(r"(--[^\n]+|\[-.*-\])", "", raw)` (line 121): a
left-to-right scan removing every comment match and keeping every other
character. -/
def stripCommentsF : ℕ → List Char → List Char
  | 0, s => s
  | _ + 1, [] => []
  | fuel + 1, c :: rest =>
    match commentMatch (c :: rest) with
    | some r => stripCommentsF fuel r
    | none => c :: stripCommentsF fuel rest

def stripComments (s : List Char) : List Char := stripCommentsF (s.length + 1) s

/-- The attempt, after a `~`, of the tail of `~[\w ]*\{([^}%]*)(?:%([^}]+))?}`
(line 137).  Returns the two groups (the unit empty when its group does not
participate, as Python `re.sub` substitutes `""` for unmatched groups) and the
rest of the input.  The name run and both groups are greedy; no shorter
backtracking alternative can succeed, so failure of this attempt means no
match at this `~`. -/
def timerSubMatch (s : List Char) : Option (List Char × List Char × List Char) :=
  match s.drop ((s.takeWhile isNameChar).length) with
  | '{' :: s2 =>
    (match s2.drop ((s2.takeWhile (fun c => !(c = '}' || c = '%'))).length) with
     | '}' :: rest => some (s2.takeWhile (fun c => !(c = '}' || c = '%')), [], rest)
     | '%' :: s3 =>
       if (s3.takeWhile (fun c => c ≠ '}')).isEmpty then none
       else
         match s3.drop ((s3.takeWhile (fun c => c ≠ '}')).length) with
         | '}' :: rest => some (s2.takeWhile (fun c => !(c = '}' || c = '%')),
             s3.takeWhile (fun c => c ≠ '}'), rest)
         | _ => none
     | _ => none)
  | _ => none

/-- Models `re.sub(r"~[\w ]*\{([^}%]*)(?:%([^}]+))?}", r"\1 \2", s)`
(lines 136-140): each braced timer is replaced by amount, one space, unit. -/
def timerSubF : ℕ → List Char → List Char
  | 0, s => s
  | _ + 1, [] => []
  | fuel + 1, c :: rest =>
    if c = '~' then
      match timerSubMatch rest with
      | some (amt, u, r) => amt ++ ' ' :: (u ++ timerSubF fuel r)
      | none => '~' :: timerSubF fuel rest
    else c :: timerSubF fuel rest

def timerSub (s : List Char) : List Char := timerSubF (s.length + 1) s

/-- The attempt, after a `@` or `#` sigil, of `(\w[\w ]*)({[^}]*})?`
(line 134): a word character starting a greedy `[\w ]*` run, then an optional
complete brace group.  Returns group 1 and the rest of the input. -/
def icSubMatch (s : List Char) : Option (List Char × List Char) :=
  match s with
  | [] => none
  | c :: _ =>
    if isWordChar c then
      let name := s.takeWhile isNameChar
      match s.drop name.length with
      | '{' :: s2 =>
        let inner := s2.takeWhile (fun d => d ≠ '}')
        (match s2.drop inner.length with
         | '}' :: rest => some (name, rest)
         | _ => some (name, s.drop name.length))
      | rest => some (name, rest)
    else none

/-- Models `re.sub(r"(?:@|#)(\w[\w ]*)({[^}]*})?", r"\1", s)` (lines 133-135):
each ingredient or cookware mark is replaced by its bare name. -/
def icSubF : ℕ → List Char → List Char
  | 0, s => s
  | _ + 1, [] => []
  | fuel + 1, c :: rest =>
    if c = '@' || c = '#' then
      match icSubMatch rest with
      | some (name, r) => name ++ icSubF fuel r
      | none => c :: icSubF fuel rest
    else c :: icSubF fuel rest

def icSub (s : List Char) : List Char := icSubF (s.length + 1) s

/-- The rendered step line (lines 132-143): the timer substitution, then the
ingredient/cookware substitution. -/
def renderStep (s : List Char) : List Char := icSub (timerSub s)

/-- The single-word branch `[\w]+` of the three mention patterns. -/
def wordTok (s : List Char) : Option (List Char × List Char) :=
  let w := s.takeWhile isWordChar
  if w.isEmpty then none else some (w, s.drop w.length)

/-- The attempt, after a `@`, of `(?:[\w ]+?){[^}]*}|[\w]+` (line 145).  The
lazy name stops at the first `{`, which — `{` not being a name character —
can only close the maximal name run; without a complete brace group the
branch fails and the single-word branch is tried. -/
def ingrTok (s : List Char) : Option (List Char × List Char) :=
  let run := s.takeWhile isNameChar
  if run.isEmpty then wordTok s
  else
    match s.drop run.length with
    | '{' :: s2 =>
      let inner := s2.takeWhile (fun d => d ≠ '}')
      (match s2.drop inner.length with
       | '}' :: rest => some (run ++ '{' :: (inner ++ [ '}' ]), rest)
       | _ => wordTok s)
    | _ => wordTok s

/-- The attempt, after a `~`, of `(?:[\w ]*?){[^}]*}|[\w]+` (line 176); the
name run may be empty. -/
def timerTok (s : List Char) : Option (List Char × List Char) :=
  let run := s.takeWhile isNameChar
  match s.drop run.length with
  | '{' :: s2 =>
    let inner := s2.takeWhile (fun d => d ≠ '}')
    (match s2.drop inner.length with
     | '}' :: rest => some (run ++ '{' :: (inner ++ [ '}' ]), rest)
     | _ => wordTok s)
  | _ => wordTok s

/-- The attempt, after a `#`, of `([\w ]+?){[^}]*}|[\w]+` (line 160), already
mapped through `s[1] or s[0]` (line 158): the braced branch yields the name
inside the braces, the word branch the word. -/
def cookTok (s : List Char) : Option (List Char × List Char) :=
  let run := s.takeWhile isNameChar
  if run.isEmpty then wordTok s
  else
    match s.drop run.length with
    | '{' :: s2 =>
      let inner := s2.takeWhile (fun d => d ≠ '}')
      (match s2.drop inner.length with
       | '}' :: rest => some (run, rest)
       | _ => wordTok s)
    | _ => wordTok s

/-- A `findall`/`finditer` scan: at each occurrence of the sigil try the token
pattern; on a match continue after it, otherwise advance one character. -/
def findAllF (sig : Char) (tok : List Char → Option (List Char × List Char)) :
    ℕ → List Char → List (List Char)
  | 0, _ => []
  | _ + 1, [] => []
  | fuel + 1, c :: rest =>
    if c = sig then
      match tok rest with
      | some (t, r) => t :: findAllF sig tok fuel r
      | none => findAllF sig tok fuel rest
    else findAllF sig tok fuel rest

/-- The matches of `re.finditer("@(?:(?:[\w ]+?){[^}]*}|[\w]+)", s)`, with
their `@` (line 145). -/
def ingrFindAll (s : List Char) : List (List Char) :=
  (findAllF '@' ingrTok (s.length + 1) s).map (fun t => '@' :: t)

/-- The matches of `re.findall(r"~(?:(?:[\w ]*?){[^}]*}|[\w]+)", s)`, with
their `~` (line 176). -/
def timerFindAll (s : List Char) : List (List Char) :=
  (findAllF '~' timerTok (s.length + 1) s).map (fun t => '~' :: t)

/-- The cookware names of one raw step (lines 153-168). -/
def cookFindAll (s : List Char) : List (List Char) :=
  findAllF '#' cookTok (s.length + 1) s

/-- The Python type of an amount: `int`, `float` or `Fraction`. -/
inductive NumTag
  | intTag
  | floatTag
  | fracTag
deriving DecidableEq, Repr

/-- An amount value.  `float` is modeled as an exact rational. -/
inductive PyNum
  | int (n : ℤ)
  | float (q : ℚ)
  | frac (q : ℚ)
deriving DecidableEq, Repr

def PyNum.tag : PyNum → NumTag
  | .int _ => .intTag
  | .float _ => .floatTag
  | .frac _ => .fracTag

/-- The value of a list of digit values. -/
def digitsVal (ds : List ℕ) : ℕ := ds.foldl (fun a d => a * 10 + d) 0

/-- An optional leading sign; returns whether it was `-` and the rest. -/
def stripSign : List Char → Bool × List Char
  | '+' :: r => (false, r)
  | '-' :: r => (true, r)
  | r => (false, r)

/-- Continue a `\d+(_\d+)*` run after at least one digit: further digits,
or a single underscore that must be followed by a digit (PEP 515).  Returns
the digit values and the rest of the input. -/
def digitRunTail : List Char → List ℕ × List Char
  | [] => ([], [])
  | c :: rest =>
    match pyDigit? c with
    | some v =>
      let p := digitRunTail rest
      (v :: p.1, p.2)
    | none =>
      if c = '_' then
        match rest with
        | d :: rest2 =>
          (match pyDigit? d with
           | some v =>
             let p := digitRunTail rest2
             (v :: p.1, p.2)
           | none => ([], c :: rest))
        | [] => ([], [c])
      else ([], c :: rest)

/-- A maximal `\d+(_\d+)*` run: its digit values and the rest of the
input; `none` when the input does not start with a digit. -/
def digitRun (s : List Char) : Option (List ℕ × List Char) :=
  match s with
  | c :: rest =>
    (match pyDigit? c with
     | some v =>
       let p := digitRunTail rest
       some (v :: p.1, p.2)
     | none => none)
  | [] => none

/-- Models Python `int(s)`: surrounding whitespace, an optional sign, then a
non-empty run of decimal digits with single underscores between digits
(PEP 515) taking the whole rest. -/
def pyInt (s : List Char) : Option ℤ :=
  let p := stripSign (pyStrip s)
  match digitRun p.2 with
  | some (ds, []) => some (if p.1 then -(digitsVal ds : ℤ) else (digitsVal ds : ℤ))
  | _ => none

/-- Models `Fraction(s)` on the inputs that reach it (those containing `/`
and no `.`), per `_RATIONAL_FORMAT` of CPython 3.12: whitespace, an optional
sign, an underscore-grouped digit run, `\s*/\s*`, an underscore-grouped
digit run, whitespace; a zero denominator raises `ZeroDivisionError`, also a
parse failure. -/
def pyFraction (s : List Char) : Option ℚ :=
  let p := stripSign (pyStrip s)
  match digitRun p.2 with
  | some (num, r1) =>
    (match r1.dropWhile isPySpace with
     | '/' :: r2 =>
       (match digitRun (r2.dropWhile isPySpace) with
        | some (den, []) =>
          if digitsVal den = 0 then none
          else
            let q : ℚ := mkRat (digitsVal num : ℤ) (digitsVal den)
            some (if p.1 then -q else q)
        | _ => none)
     | _ => none)
  | none => none

/-- Models `float(s)` on the inputs that reach it (those containing `.`):
whitespace, an optional sign, underscore-grouped digit runs around the `.`
holding at least one digit, and an optional underscore-grouped exponent.
Every underscore must sit between two digits (PEP 515).  The value is the
exact rational the literal denotes. -/
def pyFloat (s : List Char) : Option ℚ :=
  let p := stripSign (pyStrip s)
  let ipr : List ℕ × List Char :=
    match digitRun p.2 with
    | some q => q
    | none => ([], p.2)
  match ipr.2 with
  | '.' :: r2 =>
    let fpr : List ℕ × List Char :=
      match digitRun r2 with
      | some q => q
      | none => ([], r2)
    if ipr.1.isEmpty && fpr.1.isEmpty then none
    else
      let mant : ℕ := digitsVal ipr.1 * 10 ^ fpr.1.length + digitsVal fpr.1
      let withExp : Option ℚ :=
        match fpr.2 with
        | [] => some (mkRat (mant : ℤ) (10 ^ fpr.1.length))
        | e :: r3 =>
          if e = 'e' || e = 'E' then
            let pe := stripSign r3
            (match digitRun pe.2 with
             | some (eds, []) =>
               some (if pe.1 then mkRat (mant : ℤ) (10 ^ fpr.1.length * 10 ^ digitsVal eds)
                     else mkRat ((mant * 10 ^ digitsVal eds : ℕ) : ℤ) (10 ^ fpr.1.length))
             | _ => none)
          else none
      withExp.map (fun q => if p.1 then -q else q)
  | _ => none

/-- Round half to even to an integer, as Python `round` does. -/
def roundHalfEven (x : ℚ) : ℤ :=
  let n := ⌊x⌋
  if x - n < 1 / 2 then n
  else if x - n > 1 / 2 then n + 1
  else if n % 2 = 0 then n else n + 1

/-- `round(x, 1)` (line 34) on the rational model of a float. -/
def pyRound1 (x : ℚ) : ℚ := (roundHalfEven (x * 10) : ℚ) / 10

/-- The failures `Recipe.parse` can raise: a `ValueError` from a malformed
amount (or the `ZeroDivisionError` of a zero denominator), the `ValueError`s
of `__add__` on mismatched units, amount types or names, the `AttributeError`
of a failed span search, and the unreachable shape mismatches of the
anchored re-parses. -/
inductive PErr
  | malformedQuantity (frag : List Char)
  | unitMismatch (a b : Option (List Char))
  | typeMismatch (a b : NumTag)
  | nameMismatch (a b : List Char)
  | spanFailure (name : List Char)
  | internal
deriving DecidableEq, Repr

structure Quantity where
  amount : PyNum
  unit : Option (List Char)
deriving DecidableEq, Repr

/-- `self.amount + other.amount` on equal types, rounding a float sum to one
decimal (lines 32-34); `none` when the types differ. -/
def PyNum.addSame : PyNum → PyNum → Option PyNum
  | .int m, .int n => some (.int (m + n))
  | .float x, .float y => some (.float (pyRound1 (x + y)))
  | .frac x, .frac y => some (.frac (x + y))
  | _, _ => none

/-- Models `Quantity.__add__` (lines 23-38). -/
def Quantity.add (a b : Quantity) : Except PErr Quantity :=
  if a.unit ≠ b.unit then .error (.unitMismatch a.unit b.unit)
  else
    match PyNum.addSame a.amount b.amount with
    | none => .error (.typeMismatch a.amount.tag b.amount.tag)
    | some n => .ok ⟨n, a.unit⟩

/-- Models `Quantity.add_optional` (lines 13-21). -/
def Quantity.addOpt : Option Quantity → Option Quantity → Except PErr (Option Quantity)
  | some a, some b => (a.add b).map some
  | some a, none => .ok (some a)
  | none, some b => .ok (some b)
  | none, none => .ok none

/-- The first match of `re.findall(r"([^%}]+)%?([\w]+)?", raw_amount)` — the
only one `_get_quantity` reads.  Group 1 is the first maximal run of
characters outside `%}`; after an optional `%`, group 2 is a word run (empty
when its group does not participate). -/
def firstAmountMatch (s : List Char) : Option (List Char × List Char) :=
  let s1 := s.dropWhile (fun c => c = '%' || c = '}')
  if s1.isEmpty then none
  else
    let g1 := s1.takeWhile (fun c => !(c = '%' || c = '}'))
    let s2 := s1.drop g1.length
    let s3 := match s2 with
      | '%' :: r => r
      | r => r
    some (g1, s3.takeWhile isWordChar)

/-- Models `_get_quantity` (lines 229-244): no match or an empty amount gives
no quantity; otherwise the amount text is parsed as a float if it contains
`.`, as a fraction if it contains `/`, as an int otherwise, and failure
raises naming the fragment. -/
def getQuantity (m : Option (List Char × List Char)) : Except PErr (Option Quantity) :=
  match m with
  | none => .ok none
  | some (a, u) =>
    if a.isEmpty then .ok none
    else
      let amount : Except PErr PyNum :=
        if a.contains '.' then
          match pyFloat a with
          | some q => .ok (.float q)
          | none => .error (.malformedQuantity a)
        else if a.contains '/' then
          match pyFraction a with
          | some q => .ok (.frac q)
          | none => .error (.malformedQuantity a)
        else
          match pyInt a with
          | some n => .ok (.int n)
          | none => .error (.malformedQuantity a)
      amount.map (fun n => some ⟨n, if u.isEmpty then none else some u⟩)

structure Timer where
  name : List Char
  quantity : Option Quantity
deriving DecidableEq, Repr

/-- The group of `(?:{([^}]*)})?`: the text inside a complete brace group,
empty when the group does not participate. -/
def amtField (s : List Char) : List Char :=
  match s with
  | '{' :: r =>
    let inner := r.takeWhile (fun d => d ≠ '}')
    (match r.drop inner.length with
     | '}' :: _ => inner
     | _ => [])
  | _ => []

/-- Models `Timer.parse` (lines 46-50): `^~([^{]*)` takes the (possibly
empty) name — everything up to the first `{` — and the optional brace group
the raw amount. -/
def Timer.parse (raw : List Char) : Except PErr Timer :=
  match raw with
  | '~' :: r =>
    (getQuantity (firstAmountMatch
        (amtField (r.drop ((r.takeWhile (fun c => c ≠ '{')).length))))).map
      (fun q => ⟨r.takeWhile (fun c => c ≠ '{'), q⟩)
  | _ => .error .internal

structure Ingredient where
  name : List Char
  location : ℕ × ℕ × ℕ
  quantity : Option Quantity
deriving DecidableEq, Repr

/-- The leftmost index at which `needle` occurs in the haystack; models
`re.search` on a needle of word characters and spaces (no metacharacters). -/
def findSub (needle : List Char) : List Char → Option ℕ
  | [] => if needle.isEmpty then some 0 else none
  | c :: t =>
    if needle.isPrefixOf (c :: t) then some 0
    else (findSub needle t).map (· + 1)

/-- `ingredients_on_current_step[-1].location[2]`, or 0 when this step has no
ingredient yet (lines 82-89). -/
def lastEndOn (cur : List Ingredient) (stepIdx : ℕ) : ℕ :=
  match (cur.filter (fun i => i.location.1 == stepIdx)).getLast? with
  | some i => i.location.2.2
  | none => 0

/-- Models `Ingredient.parse` (lines 69-97): `^@([^{]+)` takes the non-empty
name — everything up to the first `{` — and the optional brace group the raw
amount; the span is searched in the rendered step from the end of the last
ingredient already on this step (0 if none), before the quantity is
parsed. -/
def Ingredient.parse (tok : List Char) (stepIdx : ℕ) (steps : List (List Char))
    (cur : List Ingredient) : Except PErr Ingredient :=
  match tok with
  | '@' :: r =>
    if (r.takeWhile (fun c => c ≠ '{')).isEmpty then .error .internal
    else
      match findSub (r.takeWhile (fun c => c ≠ '{'))
          ((steps.getD stepIdx []).drop (lastEndOn cur stepIdx)) with
      | none => .error (.spanFailure (r.takeWhile (fun c => c ≠ '{')))
      | some f =>
        (getQuantity (firstAmountMatch
            (amtField (r.drop ((r.takeWhile (fun c => c ≠ '{')).length))))).map
          (fun q => ⟨r.takeWhile (fun c => c ≠ '{'),
            (stepIdx, f + lastEndOn cur stepIdx,
             f + lastEndOn cur stepIdx + (r.takeWhile (fun c => c ≠ '{')).length), q⟩)
  | _ => .error .internal

/-- Models `Ingredient.__add__` (lines 99-108): the first mention's name and
location are kept. -/
def Ingredient.add (a b : Ingredient) : Except PErr Ingredient :=
  if a.name ≠ b.name then .error (.nameMismatch a.name b.name)
  else (Quantity.addOpt a.quantity b.quantity).map (fun q => ⟨a.name, a.location, q⟩)

/-- One dict update of `_remove_duplicates`: a new name is appended, an
already-seen name is `+=`-merged in place. -/
def upsertIngr : List Ingredient → Ingredient → Except PErr (List Ingredient)
  | [], i => .ok [i]
  | a :: rest, i =>
    if a.name = i.name then (a.add i).map (· :: rest)
    else (upsertIngr rest i).map (a :: ·)

/-- Models `_remove_duplicates` (lines 186-199): fold the mention list into
an insertion-ordered dict and return its values. -/
def removeDuplicates (l : List Ingredient) : Except PErr (List Ingredient) :=
  l.foldlM upsertIngr []

/-- The inner loop of lines 147-151 for one raw step: parse each ingredient
token against the list accumulated so far. -/
def extractStep (steps : List (List Char)) (stepIdx : ℕ) :
    List (List Char) → List Ingredient → Except PErr (List Ingredient)
  | [], acc => .ok acc
  | tok :: toks, acc => do
    let i ← Ingredient.parse tok stepIdx steps acc
    extractStep steps stepIdx toks (acc ++ [i])

/-- The loop of lines 146-151 over the enumerated raw steps. -/
def extractAll (steps : List (List Char)) :
    List (List Char) → ℕ → List Ingredient → Except PErr (List Ingredient)
  | [], _, acc => .ok acc
  | rs :: rest, idx, acc => do
    let acc1 ← extractStep steps idx (ingrFindAll rs) acc
    extractAll steps rest (idx + 1) acc1

/-- Models `_extract_metadata` (lines 201-205): `^>> ?([^:]+): ?(.*)$` with
both groups stripped.  The optional space backtracks: if consuming it leaves
no non-colon character before the colon, it is retried as part of the key. -/
def extractMetadata (line : List Char) : Option (List Char × List Char) :=
  match line with
  | '>' :: '>' :: rest =>
    let core := fun (s : List Char) =>
      let key := s.takeWhile (fun c => c ≠ ':')
      if key.isEmpty then none
      else
        match s.drop key.length with
        | ':' :: r2 =>
          let v := match r2 with
            | ' ' :: r3 => r3
            | r3 => r3
          some (pyStrip key, pyStrip v)
        | _ => none
    (match rest with
     | ' ' :: r1 =>
       (match core r1 with
        | some kv => some kv
        | none => core rest)
     | _ => core rest)
  | _ => none

/-- One dict insertion: overwrite an existing key in place or append. -/
def upsertMeta : List (List Char × List Char) → List Char × List Char →
    List (List Char × List Char)
  | [], kv => [kv]
  | (k, v) :: rest, kv =>
    if k = kv.1 then (k, kv.2) :: rest
    else (k, v) :: upsertMeta rest kv

/-- `dict(...)` over the extracted key/value pairs (lines 213-218). -/
def buildMetadata (lines : List (List Char)) : List (List Char × List Char) :=
  (lines.filterMap extractMetadata).foldl upsertMeta []

/-- Dictionary lookup in the metadata model. -/
def metaLookup (m : List (List Char × List Char)) (k : List Char) : Option (List Char) :=
  (m.find? (fun p => p.1 == k)).map (fun p => p.2)

structure Recipe where
  metadata : List (List Char × List Char)
  ingredients : List Ingredient
  steps : List (List Char)
  cookware : List (List Char)
  timers : List Timer
deriving DecidableEq, Repr

/-- `x.startswith(">>")` (lines 128 and 209). -/
def isMetaLine (l : List Char) : Bool := [ '>', '>' ].isPrefixOf l

/-- Lines 121-124: strip comments, split on newlines, strip each line, drop
the empty ones. -/
def paragraphsOf (raw : List Char) : List (List Char) :=
  ((splitNl (stripComments raw)).map pyStrip).filter (fun l => !l.isEmpty)

/-- The step lines: the paragraphs not starting with `>>` (lines 126-131). -/
def stepLinesP (ps : List (List Char)) : List (List Char) :=
  ps.filter (fun l => !isMetaLine l)

/-- Lines 132-199 on the step lines: rendered steps, ingredient mentions,
cookware, timers, deduplicated ingredients, in the source's evaluation
order. -/
def parseSteps (rawSteps : List (List Char)) :
    Except PErr (List Ingredient × List (List Char) × List (List Char) × List Timer) := do
  let steps := rawSteps.map renderStep
  let mentions ← extractAll steps rawSteps 0 []
  let cookware := (rawSteps.map cookFindAll).flatten
  let timers ← ((rawSteps.map timerFindAll).flatten).mapM Timer.parse
  let ingredients ← removeDuplicates mentions
  .ok (ingredients, steps, cookware, timers)

/-- The metadata of lines 201-218. -/
def metadataP (ps : List (List Char)) : List (List Char × List Char) :=
  buildMetadata (ps.filter isMetaLine)

/-- Models `Recipe.parse` (lines 119-226). -/
def Recipe.parse (raw : List Char) : Except PErr Recipe :=
  match parseSteps (stepLinesP (paragraphsOf raw)) with
  | .error e => .error e
  | .ok (ing, st, cw, tm) => .ok ⟨metadataP (paragraphsOf raw), ing, st, cw, tm⟩

/-- The brace-group amount text of a matched token: after the sigil, the name
runs to the first `{` (the anchored re-parses of `Ingredient.parse` and
`Timer.parse`), then the optional brace group supplies the raw amount. -/
def tokRawAmt (tok : List Char) : List Char :=
  match tok with
  | _ :: r => amtField (r.drop ((r.takeWhile (fun c => c ≠ '{')).length))
  | [] => []

/-- The quantity computed for a matched token. -/
def tokQuantity (tok : List Char) : Except PErr (Option Quantity) :=
  getQuantity (firstAmountMatch (tokRawAmt tok))

/-- The numeric representation selected for an amount text (decimal when it
contains `.`, rational when it contains `/` and no `.`, integer otherwise)
fails on it. -/
def amountMalformed (a : List Char) : Bool :=
  if a.contains '.' then (pyFloat a).isNone
  else if a.contains '/' then (pyFraction a).isNone
  else (pyInt a).isNone

/-- First-appearance deduplication, carrying the names already seen. -/
def dedupFirstFrom (seen : List (List Char)) : List (List Char) → List (List Char)
  | [] => []
  | x :: xs =>
    if seen.contains x then dedupFirstFrom seen xs
    else x :: dedupFirstFrom (seen ++ [x]) xs

/-- One entry per distinct name, in order of first appearance. -/
def dedupFirst (l : List (List Char)) : List (List Char) := dedupFirstFrom [] l

/-- The fold of `Ingredient.__add__` over a mention group. -/
def mergeGroup (first : Ingredient) (rest : List Ingredient) : Except PErr Ingredient :=
  rest.foldlM Ingredient.add first

/-- The fold of `Quantity.add_optional` over the quantities of a group. -/
def sumQuantities (q : Option Quantity) (qs : List (Option Quantity)) :
    Except PErr (Option Quantity) :=
  qs.foldlM Quantity.addOpt q

/-- Two mention spans do not overlap whenever they lie on the same step
line (the first ends before the second starts). -/
def SpanOrdered (a b : Ingredient) : Prop :=
  a.location.1 = b.location.1 → a.location.2.2 ≤ b.location.2.1

/-- Every mention of the given step recorded so far ends no later than the
end of the last such mention — the offset the next search starts from. -/
def SameStepChained (acc : List Ingredient) (idx : ℕ) : Prop :=
  ∀ a ∈ acc.filter (fun i => i.location.1 == idx), a.location.2.2 ≤ lastEndOn acc idx

/-! ## General lemmas about the embedding -/

theorem addSame_eq_none_iff (a b : PyNum) : PyNum.addSame a b = none ↔ a.tag ≠ b.tag := by
  cases a <;> cases b <;> simp [PyNum.addSame, PyNum.tag]

/-- Inversion of a successful `Except` bind. -/
theorem exceptBind_ok {α β : Type} {x : Except PErr α} {f : α → Except PErr β} {b : β}
    (h : x >>= f = .ok b) : ∃ a, x = .ok a ∧ f a = .ok b := by
  cases x with
  | error e => cases h
  | ok a => exact ⟨a, rfl, h⟩

/-- On success `parseSteps` returns the rendered steps, the concatenated
cookware scan, the parsed concatenated timer scan, and the deduplication of
some successfully extracted mention list. -/
theorem parseSteps_ok {rs : List (List Char)} {ing st cw tm}
    (h : parseSteps rs = .ok (ing, st, cw, tm)) :
    st = rs.map renderStep ∧ cw = (rs.map cookFindAll).flatten ∧
    ((rs.map timerFindAll).flatten.mapM Timer.parse = .ok tm) ∧
    ∃ ms, extractAll (rs.map renderStep) rs 0 [] = .ok ms ∧ removeDuplicates ms = .ok ing := by
  simp only [parseSteps] at h
  obtain ⟨ms, hm, h⟩ := exceptBind_ok h
  obtain ⟨ts, ht, h⟩ := exceptBind_ok h
  obtain ⟨ing', hd, h⟩ := exceptBind_ok h
  simp only [Except.ok.injEq, Prod.mk.injEq] at h
  obtain ⟨h1, h2, h3, h4⟩ := h
  subst h1; subst h2; subst h3; subst h4
  exact ⟨rfl, rfl, ht, ms, hm, hd⟩

/-- `Recipe.parse` succeeds exactly when `parseSteps` does, with the metadata
attached. -/
theorem parse_ok {raw : List Char} {r : Recipe} (h : Recipe.parse raw = .ok r) :
    ∃ ing st cw tm, parseSteps (stepLinesP (paragraphsOf raw)) = .ok (ing, st, cw, tm) ∧
      r = ⟨metadataP (paragraphsOf raw), ing, st, cw, tm⟩ := by
  unfold Recipe.parse at h
  cases hps : parseSteps (stepLinesP (paragraphsOf raw)) with
  | error e => rw [hps] at h; cases h
  | ok q =>
    obtain ⟨ing, st, cw, tm⟩ := q
    rw [hps] at h
    cases h
    exact ⟨ing, st, cw, tm, rfl, rfl⟩

theorem mapM_ok_forall {α β : Type} {f : α → Except PErr β} :
    ∀ {l : List α} {out : List β}, l.mapM f = .ok out → ∀ x ∈ l, ∃ y, f x = .ok y := by
  intro l
  induction l with
  | nil => intro out _ x hx; cases hx
  | cons a t ih =>
    intro out h x hx
    rw [List.mapM_cons] at h
    obtain ⟨b, hfa, h⟩ := exceptBind_ok h
    obtain ⟨bs, hbs, _⟩ := exceptBind_ok h
    rcases List.mem_cons.mp hx with rfl | hxt
    · exact ⟨b, hfa⟩
    · exact ih hbs x hxt

theorem mapM_ok_length {α β : Type} {f : α → Except PErr β} :
    ∀ {l : List α} {out : List β}, l.mapM f = .ok out → out.length = l.length := by
  intro l
  induction l with
  | nil =>
    intro out h
    simp only [List.mapM_nil] at h
    cases h
    rfl
  | cons a t ih =>
    intro out h
    rw [List.mapM_cons] at h
    obtain ⟨b, _, h⟩ := exceptBind_ok h
    obtain ⟨bs, hbs, h⟩ := exceptBind_ok h
    cases h
    simp [ih hbs]

theorem metaLookup_upsert_self (m : List (List Char × List Char)) (k v : List Char) :
    metaLookup (upsertMeta m (k, v)) k = some v := by
  induction m with
  | nil => simp [upsertMeta, metaLookup]
  | cons p rest ih =>
    obtain ⟨pk, pv⟩ := p
    by_cases h : pk = k
    · subst h
      simp [upsertMeta, metaLookup]
    · simpa [upsertMeta, metaLookup, h] using ih

theorem buildMetadata_append_match {lines : List (List Char)} {line k v : List Char}
    (h : extractMetadata line = some (k, v)) :
    buildMetadata (lines ++ [line]) = upsertMeta (buildMetadata lines) (k, v) := by
  unfold buildMetadata
  rw [List.filterMap_append, List.foldl_append]
  simp [List.filterMap, h]

theorem buildMetadata_append_none {lines : List (List Char)} {line : List Char}
    (h : extractMetadata line = none) :
    buildMetadata (lines ++ [line]) = buildMetadata lines := by
  unfold buildMetadata
  rw [List.filterMap_append]
  simp [List.filterMap, h]

theorem getQuantity_malformed {a : List Char} (u : List Char) (ha : a ≠ [])
    (hm : amountMalformed a = true) :
    getQuantity (some (a, u)) = .error (.malformedQuantity a) := by
  have hae : a.isEmpty = false := by
    cases a with
    | nil => exact absurd rfl ha
    | cons c t => rfl
  unfold getQuantity
  by_cases hdot : '.' ∈ a
  · simp only [amountMalformed] at hm
    simp [hdot] at hm
    rcases hf : pyFloat a with _ | q
    · simp [hae, hdot, hf, Except.map]
    · simp [hf] at hm
  · simp only [amountMalformed] at hm
    simp [hdot] at hm
    by_cases hsl : '/' ∈ a
    · simp [hsl] at hm
      rcases hf : pyFraction a with _ | q
      · simp [hae, hdot, hsl, hf, Except.map]
      · simp [hf] at hm
    · simp [hsl] at hm
      rcases hf : pyInt a with _ | n
      · simp [hae, hdot, hsl, hf, Except.map]
      · simp [hf] at hm

theorem getQuantity_wellformed {a : List Char} (u : List Char) (ha : a ≠ [])
    (hm : amountMalformed a = false) :
    ∃ q, getQuantity (some (a, u)) = .ok (some q) := by
  have hae : a.isEmpty = false := by
    cases a with
    | nil => exact absurd rfl ha
    | cons c t => rfl
  unfold getQuantity
  by_cases hdot : '.' ∈ a
  · simp only [amountMalformed] at hm
    simp [hdot] at hm
    rcases hf : pyFloat a with _ | q
    · simp [hf] at hm
    · exact ⟨⟨.float q, if u.isEmpty then none else some u⟩,
        by simp [hae, hdot, hf, Except.map]⟩
  · simp only [amountMalformed] at hm
    simp [hdot] at hm
    by_cases hsl : '/' ∈ a
    · simp [hsl] at hm
      rcases hf : pyFraction a with _ | q
      · simp [hf] at hm
      · exact ⟨⟨.frac q, if u.isEmpty then none else some u⟩,
          by simp [hae, hdot, hsl, hf, Except.map]⟩
    · simp [hsl] at hm
      rcases hf : pyInt a with _ | n
      · simp [hf] at hm
      · exact ⟨⟨.int n, if u.isEmpty then none else some u⟩,
          by simp [hae, hdot, hsl, hf, Except.map]⟩

/-- A successful `Ingredient.parse` means the token's quantity parsed. -/
theorem ingrParse_ok_tokQuantity {tok : List Char} {idx : ℕ} {steps : List (List Char)}
    {cur : List Ingredient} {i : Ingredient}
    (h : Ingredient.parse tok idx steps cur = .ok i) : tokQuantity tok = .ok i.quantity := by
  unfold Ingredient.parse at h
  split at h
  case h_2 => cases h
  case h_1 r =>
    split at h
    · cases h
    · split at h
      · cases h
      next f hf =>
        rcases hq : getQuantity (firstAmountMatch (amtField
            (r.drop ((r.takeWhile (fun c => c ≠ '{')).length)))) with e | q
        · rw [hq] at h; cases h
        · rw [hq] at h
          simp only [Except.map, Except.ok.injEq] at h
          subst h
          simpa [tokQuantity, tokRawAmt] using hq

/-- A successful `Timer.parse` means the token's quantity parsed. -/
theorem timerParse_ok_tokQuantity {tok : List Char} {t : Timer}
    (h : Timer.parse tok = .ok t) : tokQuantity tok = .ok t.quantity := by
  unfold Timer.parse at h
  split at h
  case h_2 => cases h
  case h_1 r =>
    rcases hq : getQuantity (firstAmountMatch (amtField
        (r.drop ((r.takeWhile (fun c => c ≠ '{')).length)))) with e | q
    · rw [hq] at h; cases h
    · rw [hq] at h
      simp only [Except.map, Except.ok.injEq] at h
      subst h
      simpa [tokQuantity, tokRawAmt] using hq

theorem extractStep_ok_forall {steps : List (List Char)} {idx : ℕ} :
    ∀ {toks : List (List Char)} {acc out : List Ingredient},
      extractStep steps idx toks acc = .ok out →
      ∀ tok ∈ toks, ∃ cur i, Ingredient.parse tok idx steps cur = .ok i := by
  intro toks
  induction toks with
  | nil => intro acc out _ tok htok; cases htok
  | cons a t ih =>
    intro acc out h tok htok
    unfold extractStep at h
    obtain ⟨i, hi, h⟩ := exceptBind_ok h
    rcases List.mem_cons.mp htok with rfl | htok'
    · exact ⟨acc, i, hi⟩
    · exact ih h tok htok'

theorem extractAll_ok_forall {steps : List (List Char)} :
    ∀ {rss : List (List Char)} {idx : ℕ} {acc out : List Ingredient},
      extractAll steps rss idx acc = .ok out →
      ∀ rs ∈ rss, ∀ tok ∈ ingrFindAll rs,
        ∃ n cur i, Ingredient.parse tok n steps cur = .ok i := by
  intro rss
  induction rss with
  | nil => intro idx acc out _ rs hrs; cases hrs
  | cons a t ih =>
    intro idx acc out h rs hrs tok htok
    unfold extractAll at h
    obtain ⟨acc1, ha, h⟩ := exceptBind_ok h
    rcases List.mem_cons.mp hrs with rfl | hrs'
    · obtain ⟨cur, i, hi⟩ := extractStep_ok_forall ha tok htok
      exact ⟨idx, cur, i, hi⟩
    · exact ih h rs hrs' tok htok

/-- The location produced by a successful `Ingredient.parse`: on the current
step, starting at or after the last same-step mention's end, with the end not
before the start. -/
theorem ingrParse_ok_loc {tok : List Char} {idx : ℕ} {steps : List (List Char)}
    {cur : List Ingredient} {i : Ingredient}
    (h : Ingredient.parse tok idx steps cur = .ok i) :
    i.location.1 = idx ∧ lastEndOn cur idx ≤ i.location.2.1 ∧
    i.location.2.1 ≤ i.location.2.2 := by
  unfold Ingredient.parse at h
  split at h
  case h_2 => cases h
  case h_1 r =>
    split at h
    · cases h
    · split at h
      · cases h
      next f hf =>
        rcases hq : getQuantity (firstAmountMatch (amtField
            (r.drop ((r.takeWhile (fun c => c ≠ '{')).length)))) with e | q
        · rw [hq] at h; cases h
        · rw [hq] at h
          simp only [Except.map, Except.ok.injEq] at h
          subst h
          exact ⟨rfl, Nat.le_add_left _ _, Nat.le_add_right _ _⟩

theorem extractStep_inv {steps : List (List Char)} {idx : ℕ} :
    ∀ {toks : List (List Char)} {acc out : List Ingredient},
      extractStep steps idx toks acc = .ok out →
      acc.Pairwise SpanOrdered → SameStepChained acc idx →
      (∀ a ∈ acc, a.location.2.1 ≤ a.location.2.2) →
      out.Pairwise SpanOrdered ∧ SameStepChained out idx ∧
      (∀ a ∈ out, a.location.2.1 ≤ a.location.2.2) ∧
      (∀ a ∈ out, a ∈ acc ∨ a.location.1 = idx) := by
  intro toks
  induction toks with
  | nil =>
    intro acc out h hpw hch hse
    cases h
    exact ⟨hpw, hch, hse, fun a ha => Or.inl ha⟩
  | cons tok toks ih =>
    intro acc out h hpw hch hse
    unfold extractStep at h
    obtain ⟨i, hi, h⟩ := exceptBind_ok h
    obtain ⟨hstep, hstart, hwf⟩ := ingrParse_ok_loc hi
    have hmemf : ∀ a ∈ acc, a.location.1 = idx →
        a ∈ acc.filter (fun j => j.location.1 == idx) := by
      intro a ha haidx
      exact List.mem_filter.mpr ⟨ha, by simp [haidx]⟩
    have hordered : ∀ a ∈ acc, SpanOrdered a i := by
      intro a ha heq
      rw [hstep] at heq
      exact le_trans (hch a (hmemf a ha heq)) hstart
    have hpw' : (acc ++ [i]).Pairwise SpanOrdered := by
      rw [List.pairwise_append]
      exact ⟨hpw, List.pairwise_singleton _ _, by
        intro a ha b hb
        rw [List.mem_singleton] at hb
        subst hb
        exact hordered a ha⟩
    have hfilter : (acc ++ [i]).filter (fun j => j.location.1 == idx) =
        acc.filter (fun j => j.location.1 == idx) ++ [i] := by
      rw [List.filter_append]
      simp [List.filter, hstep]
    have hlast : lastEndOn (acc ++ [i]) idx = i.location.2.2 := by
      unfold lastEndOn
      rw [hfilter, List.getLast?_concat]
    have hch' : SameStepChained (acc ++ [i]) idx := by
      intro a ha
      rw [hfilter] at ha
      rw [hlast]
      rcases List.mem_append.mp ha with haf | hai
      · exact le_trans (hch a haf) (le_trans hstart hwf)
      · rw [List.mem_singleton] at hai
        subst hai
        exact le_refl _
    have hse' : ∀ a ∈ acc ++ [i], a.location.2.1 ≤ a.location.2.2 := by
      intro a ha
      rcases List.mem_append.mp ha with h1 | h2
      · exact hse a h1
      · rw [List.mem_singleton] at h2; subst h2; exact hwf
    obtain ⟨o1, o2, o3, o4⟩ := ih h hpw' hch' hse'
    refine ⟨o1, o2, o3, fun a ha => ?_⟩
    rcases o4 a ha with hin | hidx
    · rcases List.mem_append.mp hin with h1 | h2
      · exact Or.inl h1
      · rw [List.mem_singleton] at h2; subst h2; exact Or.inr hstep
    · exact Or.inr hidx

theorem extractAll_inv {steps : List (List Char)} :
    ∀ {rss : List (List Char)} {idx : ℕ} {acc out : List Ingredient},
      extractAll steps rss idx acc = .ok out →
      acc.Pairwise SpanOrdered →
      (∀ a ∈ acc, a.location.2.1 ≤ a.location.2.2) →
      (∀ a ∈ acc, a.location.1 < idx) →
      out.Pairwise SpanOrdered ∧ ∀ a ∈ out, a.location.2.1 ≤ a.location.2.2 := by
  intro rss
  induction rss with
  | nil =>
    intro idx acc out h hpw hse hlt
    cases h
    exact ⟨hpw, hse⟩
  | cons rs rss ih =>
    intro idx acc out h hpw hse hlt
    unfold extractAll at h
    obtain ⟨acc1, ha, h⟩ := exceptBind_ok h
    have hch : SameStepChained acc idx := by
      intro a haf
      rw [List.mem_filter] at haf
      have := hlt a haf.1
      have heq : a.location.1 = idx := by simpa using haf.2
      omega
    obtain ⟨o1, o2, o3, o4⟩ := extractStep_inv ha hpw hch hse
    refine ih h o1 o3 ?_
    intro a ha1
    rcases o4 a ha1 with hin | hidx
    · exact Nat.lt_succ_of_lt (hlt a hin)
    · omega

/-- Inversion of a successful `Ingredient.__add__`: names matched and the
result keeps the first name and location, with the optional quantities
added. -/
theorem ingrAdd_ok {a b c : Ingredient} (h : Ingredient.add a b = .ok c) :
    a.name = b.name ∧ c.name = a.name ∧ c.location = a.location ∧
    Quantity.addOpt a.quantity b.quantity = .ok c.quantity := by
  unfold Ingredient.add at h
  split at h
  · cases h
  next hne =>
    rcases hq : Quantity.addOpt a.quantity b.quantity with e | q
    · rw [hq] at h; cases h
    · rw [hq] at h
      simp only [Except.map, Except.ok.injEq] at h
      subst h
      exact ⟨not_not.mp hne, rfl, rfl, hq.symm ▸ rfl⟩

/-- A successful fold of `__add__` over a group keeps the first mention's
name and location and sums the quantities with `add_optional`. -/
theorem mergeGroup_ok :
    ∀ {rest : List Ingredient} {first out : Ingredient}, mergeGroup first rest = .ok out →
      out.name = first.name ∧ out.location = first.location ∧
      sumQuantities first.quantity (rest.map (fun m => m.quantity)) = .ok out.quantity := by
  intro rest
  induction rest with
  | nil =>
    intro first out h
    unfold mergeGroup at h
    simp only [List.foldlM_nil] at h
    cases h
    exact ⟨rfl, rfl, rfl⟩
  | cons b rest ih =>
    intro first out h
    unfold mergeGroup at h
    rw [List.foldlM_cons] at h
    obtain ⟨c, hc, h⟩ := exceptBind_ok h
    obtain ⟨hn1, hn2, hl, hq⟩ := ingrAdd_ok hc
    obtain ⟨in1, in2, in3⟩ := ih h
    refine ⟨in1.trans hn2, in2.trans hl, ?_⟩
    unfold sumQuantities
    rw [List.map_cons, List.foldlM_cons, hq]
    exact in3

/-- In a list with no repeated names, filtering for a member's name yields
exactly that member. -/
theorem filter_name_nodup :
    ∀ {acc : List Ingredient}, (acc.map (fun i => i.name)).Nodup →
      ∀ {i : Ingredient}, i ∈ acc → acc.filter (fun m => m.name == i.name) = [i] := by
  intro acc
  induction acc with
  | nil => intro _ i hi; cases hi
  | cons a rest ih =>
    intro hnd i hi
    rw [List.map_cons, List.nodup_cons] at hnd
    rcases List.mem_cons.mp hi with rfl | hrest
    · rw [List.filter_cons]
      have hz : rest.filter (fun m => m.name == i.name) = [] := by
        apply List.filter_eq_nil_iff.mpr
        intro p hp
        have hmem : p.name ∈ rest.map (fun j => j.name) := List.mem_map.mpr ⟨p, hp, rfl⟩
        simp only [beq_iff_eq]
        intro he
        exact hnd.1 (he ▸ hmem)
      simp [hz]
    · have hne : a.name ≠ i.name := by
        intro he
        exact hnd.1 (he ▸ List.mem_map.mpr ⟨i, hrest, rfl⟩)
      rw [List.filter_cons]
      simp [hne, ih hnd.2 hrest]

/-- Filtering a decomposed list for the name of its distinguished entry. -/
theorem filter_decomp_name {pre post : List Ingredient} {a : Ingredient} {n : List Char}
    (hpre : ∀ p ∈ pre, p.name ≠ n) (hpost : ∀ p ∈ post, p.name ≠ n) (han : a.name = n) :
    (pre ++ a :: post).filter (fun m => m.name == n) = [a] := by
  have h1 : pre.filter (fun m => m.name == n) = [] := by
    apply List.filter_eq_nil_iff.mpr
    intro p hp
    simp [hpre p hp]
  have h2 : post.filter (fun m => m.name == n) = [] := by
    apply List.filter_eq_nil_iff.mpr
    intro p hp
    simp [hpost p hp]
  rw [List.filter_append, List.filter_cons]
  simp [h1, h2, han]

/-- The unfolding of first-appearance deduplication at a cons. -/
theorem dedupFirstFrom_cons (seen : List (List Char)) (y : List Char)
    (ys : List (List Char)) :
    dedupFirstFrom seen (y :: ys) =
      if seen.contains y then dedupFirstFrom seen ys
      else y :: dedupFirstFrom (seen ++ [y]) ys := rfl

/-- What one dict update does: either the name is new and the entry is
appended, or the first entry of that name is merged in place. -/
theorem upsertIngr_ok_decomp :
    ∀ {acc : List Ingredient} {x : Ingredient} {acc1 : List Ingredient},
      upsertIngr acc x = .ok acc1 →
      ((acc.map (fun i => i.name)).contains x.name = false ∧ acc1 = acc ++ [x]) ∨
      (∃ pre a c post, acc = pre ++ a :: post ∧ acc1 = pre ++ c :: post ∧
        a.name = x.name ∧ (∀ p ∈ pre, p.name ≠ x.name) ∧ Ingredient.add a x = .ok c) := by
  intro acc
  induction acc with
  | nil =>
    intro x acc1 h
    unfold upsertIngr at h
    cases h
    exact Or.inl ⟨rfl, rfl⟩
  | cons a rest ih =>
    intro x acc1 h
    unfold upsertIngr at h
    split at h
    next heq =>
      rcases hadd : Ingredient.add a x with e | c
      · rw [hadd] at h; cases h
      · rw [hadd] at h
        simp only [Except.map, Except.ok.injEq] at h
        subst h
        exact Or.inr ⟨[], a, c, rest, rfl, rfl, heq, fun p hp => absurd hp (List.not_mem_nil p),
          hadd⟩
    next hne =>
      rcases hup : upsertIngr rest x with e | acc1'
      · rw [hup] at h; cases h
      · rw [hup] at h
        simp only [Except.map, Except.ok.injEq] at h
        subst h
        rcases ih hup with ⟨hc, rfl⟩ | ⟨pre, b, c, post, rfl, rfl, hbn, hpre, hadd⟩
        · refine Or.inl ⟨?_, rfl⟩
          simp only [List.map_cons, List.contains_cons, Bool.or_eq_false_iff]
          refine ⟨?_, hc⟩
          simp only [beq_eq_false_iff_ne, ne_eq]
          exact fun he => hne he.symm
        · refine Or.inr ⟨a :: pre, b, c, post, rfl, rfl, hbn, ?_, hadd⟩
          intro p hp
          rcases List.mem_cons.mp hp with rfl | hp'
          · exact hne
          · exact hpre p hp'

/-- The dict fold of `_remove_duplicates`, generalized over a seed whose
names are distinct: the output names are the seed names followed by the new
names in first-appearance order, and every output entry is the merge of its
seed entry (if any) and all its same-name mentions, in order. -/
theorem foldUpsert_spec :
    ∀ {l acc out : List Ingredient},
      List.foldlM upsertIngr acc l = .ok out →
      (acc.map (fun i => i.name)).Nodup →
      (out.map (fun i => i.name) =
         acc.map (fun i => i.name) ++
           dedupFirstFrom (acc.map (fun i => i.name)) (l.map (fun m => m.name))) ∧
      ∀ i ∈ out, ∃ g1 grest,
        acc.filter (fun m => m.name == i.name) ++ l.filter (fun m => m.name == i.name)
          = g1 :: grest ∧ mergeGroup g1 grest = .ok i := by
  intro l
  induction l with
  | nil =>
    intro acc out h hnd
    simp only [List.foldlM_nil] at h
    cases h
    constructor
    · simp [dedupFirstFrom]
    · intro i hi
      exact ⟨i, [], by simp [filter_name_nodup hnd hi], rfl⟩
  | cons x xs ih =>
    intro acc out h hnd
    rw [List.foldlM_cons] at h
    obtain ⟨acc1, hup, h⟩ := exceptBind_ok h
    rcases upsertIngr_ok_decomp hup with ⟨hnc, rfl⟩ |
      ⟨pre, a, c, post, rfl, rfl, han, hpre, hadd⟩
    · -- x's name is new: the entry is appended
      have hnotmem : x.name ∉ acc.map (fun i => i.name) := by
        intro hmem
        rw [← List.elem_iff] at hmem
        have hmem' : (acc.map (fun i => i.name)).contains x.name = true := hmem
        rw [hnc] at hmem'
        cases hmem'
      have hnd1 : ((acc ++ [x]).map (fun i => i.name)).Nodup := by
        rw [List.map_append]
        simp [List.nodup_append, hnd, hnotmem]
      obtain ⟨hn, hg⟩ := ih h hnd1
      constructor
      · have hred : dedupFirstFrom (acc.map (fun i => i.name))
            (x.name :: xs.map (fun m => m.name)) =
            x.name :: dedupFirstFrom (acc.map (fun i => i.name) ++ [x.name])
              (xs.map (fun m => m.name)) := by
          rw [dedupFirstFrom_cons, hnc]
          simp
        rw [hn, List.map_cons, hred]
        simp [List.map_append, List.append_assoc]
      · intro i hi
        obtain ⟨g1, grest, hgeq, hm⟩ := hg i hi
        refine ⟨g1, grest, ?_, hm⟩
        have hsplit : (acc ++ [x]).filter (fun m => m.name == i.name) =
            acc.filter (fun m => m.name == i.name) ++
              [x].filter (fun m => m.name == i.name) := by
          rw [List.filter_append]
        rw [hsplit, List.append_assoc] at hgeq
        have hx : [x].filter (fun m => m.name == i.name) ++
            xs.filter (fun m => m.name == i.name) =
            (x :: xs).filter (fun m => m.name == i.name) := by
          rw [List.filter_cons]
          by_cases hb : x.name = i.name
          · simp [hb]
          · simp [hb]
        rw [hx] at hgeq
        exact hgeq
    · -- x's name is already present: merged into the entry in place
      obtain ⟨hxa, hcn, hcl, hcq⟩ := ingrAdd_ok hadd
      have hmapeq : ((pre ++ c :: post).map (fun i => i.name)) =
          ((pre ++ a :: post).map (fun i => i.name)) := by
        simp [hcn]
      have hnd1 : ((pre ++ c :: post).map (fun i => i.name)).Nodup := by
        rw [hmapeq]; exact hnd
      obtain ⟨hn, hg⟩ := ih h hnd1
      have hcont : ((pre ++ a :: post).map (fun i => i.name)).contains x.name = true := by
        show List.elem x.name ((pre ++ a :: post).map (fun i => i.name)) = true
        rw [List.elem_iff, ← han]
        exact List.mem_map.mpr ⟨a, by simp, rfl⟩
      have hpost : ∀ p ∈ post, p.name ≠ x.name := by
        intro p hp he
        rw [List.map_append, List.map_cons] at hnd
        have h2 := (List.nodup_append.mp hnd).2.1
        rw [List.nodup_cons] at h2
        exact h2.1 (han ▸ he ▸ List.mem_map.mpr ⟨p, hp, rfl⟩)
      constructor
      · have hred : dedupFirstFrom ((pre ++ a :: post).map (fun i => i.name))
            (x.name :: xs.map (fun m => m.name)) =
            dedupFirstFrom ((pre ++ a :: post).map (fun i => i.name))
              (xs.map (fun m => m.name)) := by
          rw [dedupFirstFrom_cons, hcont]
          simp
        rw [hn, hmapeq, List.map_cons, hred]
      · intro i hi
        obtain ⟨g1, grest, hgeq, hm⟩ := hg i hi
        by_cases hb : x.name = i.name
        · have hfacc1 : (pre ++ c :: post).filter (fun m => m.name == i.name) = [c] :=
            filter_decomp_name (fun p hp => hb ▸ hpre p hp) (fun p hp => hb ▸ hpost p hp)
              (by rw [hcn, han, hb])
          have hfacc : (pre ++ a :: post).filter (fun m => m.name == i.name) = [a] :=
            filter_decomp_name (fun p hp => hb ▸ hpre p hp) (fun p hp => hb ▸ hpost p hp)
              (han.trans hb)
          rw [hfacc1] at hgeq
          simp only [List.cons_append, List.nil_append, List.cons.injEq] at hgeq
          obtain ⟨rfl, hrest⟩ := hgeq
          refine ⟨a, x :: xs.filter (fun m => m.name == i.name), ?_, ?_⟩
          · rw [hfacc, List.filter_cons]
            simp [hb]
          · unfold mergeGroup
            rw [List.foldlM_cons, hadd]
            rw [← hrest] at hm
            exact hm
        · have hbc : (c.name == i.name) = false := by
            simp only [beq_eq_false_iff_ne, ne_eq]
            rw [hcn, han]
            exact hb
          have hba : (a.name == i.name) = false := by
            simp only [beq_eq_false_iff_ne, ne_eq]
            rw [han]
            exact hb
          have hbx : (x.name == i.name) = false := by simp [hb]
          refine ⟨g1, grest, ?_, hm⟩
          have hfc : (pre ++ c :: post).filter (fun m => m.name == i.name) =
              pre.filter (fun m => m.name == i.name) ++
                post.filter (fun m => m.name == i.name) := by
            rw [List.filter_append, List.filter_cons, hbc]
            simp
          have hfa : (pre ++ a :: post).filter (fun m => m.name == i.name) =
              pre.filter (fun m => m.name == i.name) ++
                post.filter (fun m => m.name == i.name) := by
            rw [List.filter_append, List.filter_cons, hba]
            simp
          have hfx : (x :: xs).filter (fun m => m.name == i.name) =
              xs.filter (fun m => m.name == i.name) := by
            rw [List.filter_cons, hbx]
            simp
          rw [hfa, hfx]
          rw [hfc] at hgeq
          exact hgeq

/-- `_remove_duplicates`: output names are the mention names deduplicated in
first-appearance order, and every output entry is the `__add__`-merge of all
the mentions of its name, in scan order. -/
theorem removeDuplicates_spec {l out : List Ingredient} (h : removeDuplicates l = .ok out) :
    out.map (fun i => i.name) = dedupFirst (l.map (fun m => m.name)) ∧
    ∀ i ∈ out, ∃ g1 grest, l.filter (fun m => m.name == i.name) = g1 :: grest ∧
      mergeGroup g1 grest = .ok i := by
  have h' : List.foldlM upsertIngr [] l = .ok out := h
  obtain ⟨h1, h2⟩ := foldUpsert_spec h' List.nodup_nil
  constructor
  · simpa [dedupFirst] using h1
  · intro i hi
    obtain ⟨g1, grest, hgeq, hm⟩ := h2 i hi
    exact ⟨g1, grest, by simpa using hgeq, hm⟩

theorem length_lt_of_drop_cons {l r : List Char} {k : ℕ} {c : Char}
    (h : l.drop k = c :: r) : r.length < l.length := by
  have hl := congrArg List.length h
  rw [List.length_drop] at hl
  simp only [List.length_cons] at hl
  omega

/-- A braced-timer match consumes at least the braces. -/
theorem timerSubMatch_lt {s a u r : List Char}
    (h : timerSubMatch s = some (a, u, r)) : r.length < s.length := by
  unfold timerSubMatch at h
  split at h
  case h_2 => cases h
  case h_1 s2 heq =>
    have hs2 : s2.length < s.length := length_lt_of_drop_cons heq
    split at h
    case h_1 rest heq2 =>
      cases h
      exact lt_trans (length_lt_of_drop_cons heq2) hs2
    case h_2 s3 heq2 =>
      have hs3 : s3.length < s2.length := length_lt_of_drop_cons heq2
      split at h
      · cases h
      · split at h
        case h_1 rest heq3 =>
          cases h
          exact lt_trans (lt_trans (length_lt_of_drop_cons heq3) hs3) hs2
        case h_2 => cases h
    case h_3 => cases h

/-- The timer substitution does not depend on the fuel once it exceeds the
input length. -/
theorem timerSubF_fuel :
    ∀ (f1 f2 : ℕ) (s : List Char), s.length < f1 → s.length < f2 →
      timerSubF f1 s = timerSubF f2 s := by
  intro f1
  induction f1 with
  | zero => intro f2 s h1 _; exact absurd h1 (Nat.not_lt_zero _)
  | succ f1 ih =>
    intro f2 s h1 h2
    cases f2 with
    | zero => exact absurd h2 (Nat.not_lt_zero _)
    | succ f2 =>
      cases s with
      | nil => rfl
      | cons c rest =>
        simp only [List.length_cons] at h1 h2
        simp only [timerSubF]
        by_cases hc : c = '~'
        · rw [if_pos hc, if_pos hc]
          cases hm : timerSubMatch rest with
          | none =>
            show '~' :: timerSubF f1 rest = '~' :: timerSubF f2 rest
            rw [ih f2 rest (by omega) (by omega)]
          | some g =>
            obtain ⟨a, u, r⟩ := g
            have hr := timerSubMatch_lt hm
            show a ++ ' ' :: (u ++ timerSubF f1 r) = a ++ ' ' :: (u ++ timerSubF f2 r)
            rw [ih f2 r (by omega) (by omega)]
        · rw [if_neg hc, if_neg hc, ih f2 rest (by omega) (by omega)]

theorem takeWhile_all {p : Char → Bool} :
    ∀ {xs : List Char}, (∀ x ∈ xs, p x = true) → xs.takeWhile p = xs := by
  intro xs
  induction xs with
  | nil => intro _; rfl
  | cons a t ih =>
    intro hall
    rw [List.takeWhile_cons, if_pos (hall a (List.mem_cons_self a t))]
    rw [ih (fun x hx => hall x (List.mem_cons_of_mem a hx))]

theorem takeWhile_append_not {p : Char → Bool} {c : Char} {ys : List Char} :
    ∀ {xs : List Char}, (∀ x ∈ xs, p x = true) → p c = false →
      (xs ++ c :: ys).takeWhile p = xs := by
  intro xs
  induction xs with
  | nil =>
    intro _ hc
    simp [List.takeWhile_cons, hc]
  | cons a t ih =>
    intro hall hc
    rw [List.cons_append, List.takeWhile_cons,
      if_pos (hall a (List.mem_cons_self a t))]
    rw [ih (fun x hx => hall x (List.mem_cons_of_mem a hx)) hc]

/-- The braced-timer pattern on an explicitly decomposed input with a unit. -/
theorem timerSubMatch_exact_unit {name amt u post : List Char}
    (hn : ∀ c ∈ name, isNameChar c = true)
    (ha : ∀ c ∈ amt, (c = '}' ∨ c = '%') → False)
    (hu : ∀ c ∈ u, c ≠ '}') (hune : u ≠ []) :
    timerSubMatch (name ++ '{' :: (amt ++ '%' :: (u ++ '}' :: post)))
      = some (amt, u, post) := by
  have hrun : (name ++ '{' :: (amt ++ '%' :: (u ++ '}' :: post))).takeWhile isNameChar
      = name := takeWhile_append_not hn (by decide)
  unfold timerSubMatch
  rw [hrun, List.drop_left]
  have hamt : (amt ++ '%' :: (u ++ '}' :: post)).takeWhile
      (fun c => !(c = '}' || c = '%')) = amt := by
    apply takeWhile_append_not
    · intro x hx
      have := ha x hx
      simp only [Bool.not_eq_eq_eq_not, Bool.not_true, Bool.or_eq_false_iff]
      constructor
      · simp only [decide_eq_false_iff_not]
        exact fun he => this (Or.inl he)
      · simp only [decide_eq_false_iff_not]
        exact fun he => this (Or.inr he)
    · decide
  simp only [hamt, List.drop_left]
  have huu : (u ++ '}' :: post).takeWhile (fun c => c ≠ '}') = u := by
    apply takeWhile_append_not
    · intro x hx
      simp [hu x hx]
    · decide
  have hueb : u.isEmpty = false := by
    cases u with
    | nil => exact absurd rfl hune
    | cons a t => rfl
  simp only [huu, hueb, List.drop_left]
  rfl

/-- The braced-timer pattern on an explicitly decomposed input without a
unit. -/
theorem timerSubMatch_exact_nounit {name amt post : List Char}
    (hn : ∀ c ∈ name, isNameChar c = true)
    (ha : ∀ c ∈ amt, (c = '}' ∨ c = '%') → False) :
    timerSubMatch (name ++ '{' :: (amt ++ '}' :: post)) = some (amt, [], post) := by
  have hrun : (name ++ '{' :: (amt ++ '}' :: post)).takeWhile isNameChar = name :=
    takeWhile_append_not hn (by decide)
  unfold timerSubMatch
  rw [hrun, List.drop_left]
  have hamt : (amt ++ '}' :: post).takeWhile (fun c => !(c = '}' || c = '%')) = amt := by
    apply takeWhile_append_not
    · intro x hx
      have := ha x hx
      simp only [Bool.not_eq_eq_eq_not, Bool.not_true, Bool.or_eq_false_iff]
      constructor
      · simp only [decide_eq_false_iff_not]
        exact fun he => this (Or.inl he)
      · simp only [decide_eq_false_iff_not]
        exact fun he => this (Or.inr he)
    · decide
  simp only [hamt, List.drop_left]

/-- No braced-timer match right after `~` when a name-character run (word
characters and spaces) is followed by nothing that could open a brace
group. -/
theorem timerSubMatch_word_none {w post : List Char}
    (hw : ∀ c ∈ w, isNameChar c = true)
    (hpost : ∀ c, post.head? = some c → ¬(isNameChar c = true ∨ c = '{')) :
    timerSubMatch (w ++ post) = none := by
  have hrun : (w ++ post).takeWhile isNameChar = w := by
    cases hp : post with
    | nil =>
      rw [List.append_nil]
      exact takeWhile_all hw
    | cons c post' =>
      apply takeWhile_append_not hw
      cases hb : isNameChar c with
      | false => rfl
      | true => exact absurd (Or.inl hb) (hpost c (by rw [hp]; rfl))
  unfold timerSubMatch
  rw [hrun, List.drop_left]
  cases hp : post with
  | nil => rfl
  | cons c post' =>
    have hcb : c ≠ '{' := fun he => (hpost c (by rw [hp]; rfl)) (Or.inr he)
    split
    next s2 heq =>
      rw [List.cons.injEq] at heq
      exact absurd heq.1 hcb
    next => rfl


/-- The timer substitution copies a `~`-free prefix verbatim. -/
theorem timerSub_append_no_tilde :
    ∀ (pre post : List Char), '~' ∉ pre → timerSub (pre ++ post) = pre ++ timerSub post := by
  intro pre
  induction pre with
  | nil => intro post _; simp
  | cons c pre ih =>
    intro post hni
    have hc : c ≠ '~' := fun he => hni (he ▸ List.mem_cons_self c pre)
    have hpre : '~' ∉ pre := fun hm => hni (List.mem_cons_of_mem c hm)
    unfold timerSub
    rw [List.cons_append]
    simp only [timerSubF, List.length_cons]
    rw [if_neg hc]
    rw [show timerSubF ((pre ++ post).length + 1) (pre ++ post) = timerSub (pre ++ post)
      from rfl]
    rw [ih post hpre]
    rfl

/-- One step of the timer substitution at a matching `~`. -/
theorem timerSub_tilde_match {rest a u r : List Char}
    (hm : timerSubMatch rest = some (a, u, r)) :
    timerSub ('~' :: rest) = a ++ ' ' :: (u ++ timerSub r) := by
  unfold timerSub
  simp only [timerSubF, List.length_cons]
  rw [if_pos trivial, hm]
  show a ++ ' ' :: (u ++ timerSubF (rest.length + 1) r) =
    a ++ ' ' :: (u ++ timerSubF (r.length + 1) r)
  rw [timerSubF_fuel (rest.length + 1) (r.length + 1) r
    (by have := timerSubMatch_lt hm; omega) (by omega)]

/-- One step of the timer substitution at a non-matching `~`. -/
theorem timerSub_tilde_none {rest : List Char} (hm : timerSubMatch rest = none) :
    timerSub ('~' :: rest) = '~' :: timerSub rest := by
  unfold timerSub
  simp only [timerSubF, List.length_cons]
  rw [if_pos trivial, hm]

theorem closePositions_cons (a : Char) (rest : List Char) (i : ℕ) :
    closePositions (a :: rest) i =
      (if a = '-' ∧ rest.head? = some ']' then i :: closePositions rest (i + 1)
       else closePositions rest (i + 1)) := rfl

/-- A comment match consumes at least one character beyond its remainder. -/
theorem commentMatch_lt {s r : List Char} (h : commentMatch s = some r) :
    r.length < s.length := by
  unfold commentMatch at h
  split at h
  case h_1 c rest =>
    split at h
    · cases h
    · cases h
      have hd : ((c :: rest).dropWhile (fun d => d ≠ '\n')).length ≤ (c :: rest).length :=
        (List.dropWhile_sublist _).length_le
      simp only [List.length_cons] at hd ⊢
      omega
  case h_2 rest =>
    split at h
    case h_1 i hi =>
      cases h
      have hd : (rest.drop (i + 2)).length ≤ rest.length := by
        rw [List.length_drop]
        omega
      simp only [List.length_cons]
      omega
    case h_2 => cases h
  case h_3 => cases h

/-- Comment stripping does not depend on the fuel once it exceeds the input
length. -/
theorem stripCommentsF_fuel :
    ∀ (f1 f2 : ℕ) (s : List Char), s.length < f1 → s.length < f2 →
      stripCommentsF f1 s = stripCommentsF f2 s := by
  intro f1
  induction f1 with
  | zero => intro f2 s h1 _; exact absurd h1 (Nat.not_lt_zero _)
  | succ f1 ih =>
    intro f2 s h1 h2
    cases f2 with
    | zero => exact absurd h2 (Nat.not_lt_zero _)
    | succ f2 =>
      cases s with
      | nil => rfl
      | cons c rest =>
        simp only [List.length_cons] at h1 h2
        simp only [stripCommentsF]
        cases hm : commentMatch (c :: rest) with
        | none =>
          show c :: stripCommentsF f1 rest = c :: stripCommentsF f2 rest
          rw [ih f2 rest (by omega) (by omega)]
        | some r =>
          have hr := commentMatch_lt hm
          simp only [List.length_cons] at hr
          show stripCommentsF f1 r = stripCommentsF f2 r
          rw [ih f2 r (by omega) (by omega)]

/-- One step of comment stripping at a comment match: the match is removed
and scanning resumes after it. -/
theorem stripComments_match {c : Char} {rest r : List Char}
    (h : commentMatch (c :: rest) = some r) :
    stripComments (c :: rest) = stripComments r := by
  unfold stripComments
  simp only [stripCommentsF, List.length_cons]
  rw [h]
  have hr := commentMatch_lt h
  simp only [List.length_cons] at hr
  show stripCommentsF (rest.length + 1) r = stripCommentsF (r.length + 1) r
  exact stripCommentsF_fuel (rest.length + 1) (r.length + 1) r (by omega) (by omega)

/-- One step of comment stripping at a non-match: the character is kept. -/
theorem stripComments_skip {c : Char} {rest : List Char}
    (h : commentMatch (c :: rest) = none) :
    stripComments (c :: rest) = c :: stripComments rest := by
  unfold stripComments
  simp only [stripCommentsF, List.length_cons]
  rw [h]

theorem takeWhile_append_all {p : Char → Bool} :
    ∀ {xs : List Char} (ys : List Char), (∀ x ∈ xs, p x = true) →
      (xs ++ ys).takeWhile p = xs ++ ys.takeWhile p := by
  intro xs
  induction xs with
  | nil => intro ys _; rfl
  | cons a t ih =>
    intro ys hall
    rw [List.cons_append, List.takeWhile_cons, if_pos (hall a (List.mem_cons_self a t))]
    rw [ih ys (fun x hx => hall x (List.mem_cons_of_mem a hx))]
    rfl

/-- Having no `-]` occurrence does not depend on the starting offset. -/
theorem closePositions_nil_all :
    ∀ {l : List Char} {i : ℕ}, closePositions l i = [] → ∀ j, closePositions l j = [] := by
  intro l
  induction l with
  | nil => intro i _ j; rfl
  | cons a rest ih =>
    intro i h j
    rw [closePositions_cons] at h ⊢
    by_cases hC : a = '-' ∧ rest.head? = some ']'
    · rw [if_pos hC] at h; cases h
    · rw [if_neg hC] at h
      rw [if_neg hC]
      exact ih h (j + 1)

theorem closePositions_last_nil {lp : List Char} (hlp : closePositions lp 0 = [])
    (i : ℕ) :
    (closePositions ('-' :: ']' :: lp) i).getLast? = some i := by
  rw [closePositions_cons, if_pos ⟨rfl, rfl⟩]
  have h2 : closePositions (']' :: lp) (i + 1) = [] := by
    rw [closePositions_cons, if_neg (by simp)]
    exact closePositions_nil_all hlp (i + 2)
  rw [h2]
  rfl

/-- The last `-]` of `m ++ "-]" ++ lp` when `lp` has none: the explicit one,
whatever closes `m` itself contains — the greedy `.*-\]` reaches past
them. -/
theorem closePositions_last {lp : List Char} (hlp : closePositions lp 0 = []) :
    ∀ (n : ℕ) (m : List Char), m.length ≤ n → ∀ i,
      (closePositions (m ++ '-' :: ']' :: lp) i).getLast? = some (i + m.length) := by
  intro n
  induction n with
  | zero =>
    intro m hm i
    have hm0 : m = [] := List.length_eq_zero.mp (Nat.le_zero.mp hm)
    subst hm0
    simpa using closePositions_last_nil hlp i
  | succ n ih =>
    intro m hm i
    cases m with
    | nil => simpa using closePositions_last_nil hlp i
    | cons x m' =>
      rw [List.cons_append]
      by_cases hC : x = '-' ∧ (m' ++ '-' :: ']' :: lp).head? = some ']'
      · obtain ⟨hx, hh⟩ := hC
        subst hx
        cases m' with
        | nil => simp at hh
        | cons y m'' =>
          have hy : y = ']' := by simpa using hh
          subst hy
          rw [List.cons_append]
          rw [closePositions_cons, if_pos ⟨rfl, rfl⟩]
          have hstep : closePositions (']' :: (m'' ++ '-' :: ']' :: lp)) (i + 1)
              = closePositions (m'' ++ '-' :: ']' :: lp) (i + 2) := by
            rw [closePositions_cons, if_neg (by simp)]
          rw [hstep]
          have hlen : m''.length ≤ n := by
            simp only [List.length_cons] at hm
            omega
          have htail := ih m'' hlen (i + 2)
          cases hL : closePositions (m'' ++ '-' :: ']' :: lp) (i + 2) with
          | nil => rw [hL] at htail; cases htail
          | cons z zs =>
            rw [hL] at htail
            rw [List.getLast?_cons_cons, htail]
            simp only [Option.some.injEq, List.length_cons]
            omega
      · rw [closePositions_cons, if_neg hC]
        have hlen : m'.length ≤ n := by
          simp only [List.length_cons] at hm
          omega
        rw [ih m' hlen (i + 1)]
        simp only [Option.some.injEq, List.length_cons]
        omega

/-- The block alternative on an explicitly decomposed input: from `[-` the
removal reaches the last `-]` of the line, past anything in between. -/
theorem commentMatch_block {mid post : List Char}
    (hm : '\n' ∉ mid)
    (hp : closePositions (post.takeWhile (fun d => d ≠ '\n')) 0 = []) :
    commentMatch ('[' :: '-' :: (mid ++ '-' :: ']' :: post)) = some post := by
  have hline : (mid ++ '-' :: ']' :: post).takeWhile (fun d => d ≠ '\n')
      = mid ++ '-' :: ']' :: post.takeWhile (fun d => d ≠ '\n') := by
    rw [takeWhile_append_all _ (fun x hx => by
      simp only [decide_eq_true_eq]
      exact fun he => hm (he ▸ hx))]
    rw [List.takeWhile_cons, if_pos (by decide), List.takeWhile_cons, if_pos (by decide)]
  show (match (closePositions ((mid ++ '-' :: ']' :: post).takeWhile
      (fun d => d ≠ '\n')) 0).getLast? with
    | some i => some ((mid ++ '-' :: ']' :: post).drop (i + 2))
    | none => none) = some post
  rw [hline, closePositions_last hp mid.length mid (le_refl _) 0]
  show some ((mid ++ '-' :: ']' :: post).drop (0 + mid.length + 2)) = some post
  have e1 : mid ++ '-' :: ']' :: post = (mid ++ ['-', ']']) ++ post := by simp
  have e2 : 0 + mid.length + 2 = (mid ++ ['-', ']']).length := by simp
  rw [e1, e2, List.drop_left]

/-- The block alternative fails when the current line has no `-]`, even if a
later line has one: block comments do not span lines. -/
theorem commentMatch_unclosed {rest : List Char}
    (hp : closePositions (rest.takeWhile (fun d => d ≠ '\n')) 0 = []) :
    commentMatch ('[' :: '-' :: rest) = none := by
  show (match (closePositions (rest.takeWhile (fun d => d ≠ '\n')) 0).getLast? with
    | some i => some (rest.drop (i + 2))
    | none => none) = none
  rw [hp]
  rfl

/-- The line-comment alternative: `--` and at least one non-newline
character remove everything to the end of the line. -/
theorem commentMatch_line {c : Char} {rest : List Char} (hc : c ≠ '\n') :
    commentMatch ('-' :: '-' :: c :: rest) =
      some ((c :: rest).dropWhile (fun d => d ≠ '\n')) := by
  show (if c = '\n' then none else some ((c :: rest).dropWhile (fun d => d ≠ '\n'))) =
    some ((c :: rest).dropWhile (fun d => d ≠ '\n'))
  rw [if_neg hc]

/-- C1: parsing "Cook the @pasta for ~{10%minutes}" yields exactly the step
"Cook the pasta for 10 minutes", one ingredient "pasta" at location (0,9,14)
with no quantity, and one anonymous timer with amount the integer 10 and unit
"minutes". -/
theorem claim1_roundTrip :
    Recipe.parse ("Cook the @pasta for ~{10%minutes}".toList) =
      .ok ⟨[], [⟨ "pasta".toList, (0, 9, 14), none⟩],
           [ "Cook the pasta for 10 minutes".toList ], [],
           [⟨[], some ⟨.int 10, some ("minutes".toList)⟩⟩]⟩ := by
  decide

/-- C3 counterexample: block comment removal is greedy, not non-greedy — on
"a [- x -] keep [- y -] b" the text between the two block comments is also
removed, leaving the step "a  b" and not the claimed "a  keep  b". -/
theorem claim3_counterexample :
    Recipe.parse ("a [- x -] keep [- y -] b".toList) =
      .ok ⟨[], [], [ "a  b".toList ], [], []⟩ ∧
    ("a  b".toList ≠ "a  keep  b".toList) := by
  decide

/-- C3 amended: comment stripping removes every line comment from `--`
(followed by at least one character) to the end of its line, and removes
every block comment greedily within a single line — from `[-` to the last
`-]` on that line, so the text between two block comments on one line is
removed as well; block comments do not span lines; a line consisting only of
"-- note" contributes neither a step nor metadata. -/
theorem claim3_greedyBlockComments :
    (∀ s r, commentMatch s = some r → stripComments s = stripComments r) ∧
    (∀ c rest, commentMatch (c :: rest) = none →
       stripComments (c :: rest) = c :: stripComments rest) ∧
    (∀ c rest, c ≠ '\n' → commentMatch ('-' :: '-' :: c :: rest) =
       some ((c :: rest).dropWhile (fun d => d ≠ '\n'))) ∧
    (∀ mid post, '\n' ∉ mid →
       closePositions (post.takeWhile (fun d => d ≠ '\n')) 0 = [] →
       commentMatch ('[' :: '-' :: (mid ++ '-' :: ']' :: post)) = some post) ∧
    (∀ rest, closePositions (rest.takeWhile (fun d => d ≠ '\n')) 0 = [] →
       commentMatch ('[' :: '-' :: rest) = none) ∧
    (Recipe.parse ("-- note".toList) = .ok ⟨[], [], [], [], []⟩) ∧
    (Recipe.parse ("hello -- junk\nnext".toList) =
       .ok ⟨[], [], [ "hello".toList, "next".toList ], [], []⟩) ∧
    (Recipe.parse ("a [- x -] keep [- y -] b".toList) =
       .ok ⟨[], [], [ "a  b".toList ], [], []⟩) ∧
    (Recipe.parse ("x [- a\nb -] y".toList) =
       .ok ⟨[], [], [ "x [- a".toList, "b -] y".toList ], [], []⟩) ∧
    (Recipe.parse ("keep [- one -] mid [- two -] end\n-- note".toList) =
       .ok ⟨[], [], [ "keep  end".toList ], [], []⟩) := by
  refine ⟨?_, fun c rest h => stripComments_skip h,
    fun c rest hc => commentMatch_line hc,
    fun mid post hm hp => commentMatch_block hm hp,
    fun rest hp => commentMatch_unclosed hp,
    by decide, by decide, by decide, by decide, by decide⟩
  intro s r h
  cases s with
  | nil => cases h
  | cons c rest => exact stripComments_match h

/-- C3 witness: the line alternative, the block alternative reaching past an
inner `-]` (greedily), and the removal step, each at a concrete input. -/
theorem claim3_greedyBlockComments_w :
    (commentMatch ('-' :: '-' :: ' ' :: ("note".toList)) =
       some ((' ' :: ("note".toList)).dropWhile (fun d => d ≠ '\n'))) ∧
    (commentMatch ('[' :: '-' ::
        ((" x -] keep [- y ".toList) ++ '-' :: ']' :: ([] : List Char))) =
       some ([] : List Char)) ∧
    (stripComments ("-- note".toList) = stripComments ([] : List Char)) :=
  ⟨claim3_greedyBlockComments.2.2.1 ' ' ("note".toList) (by decide),
   claim3_greedyBlockComments.2.2.2.1 (" x -] keep [- y ".toList) []
     (by decide) (by decide),
   claim3_greedyBlockComments.1 ("-- note".toList) [] (by decide)⟩

/-- C5: adding two quantities fails exactly when the units differ or the
numeric types differ; on matching unit and type it succeeds, and a float sum
is rounded to one decimal; such a failure propagates so the whole parse
fails. -/
theorem claim5_quantityAdd :
    (∀ a b : Quantity, (∃ e, a.add b = .error e) ↔
        (a.unit ≠ b.unit ∨ a.amount.tag ≠ b.amount.tag)) ∧
    (∀ a b : Quantity, a.unit = b.unit → a.amount.tag = b.amount.tag →
        ∃ c, a.add b = .ok c) ∧
    (∀ (x y : ℚ) (u : Option (List Char)),
        Quantity.add ⟨.float x, u⟩ ⟨.float y, u⟩ = .ok ⟨.float (pyRound1 (x + y)), u⟩) ∧
    (∃ e, Recipe.parse ("Add @salt{1%grams} and @salt{1%cups}".toList) = .error e) := by
  refine ⟨?_, ?_, ?_, ?_⟩
  · intro a b
    by_cases hu : a.unit = b.unit
    · cases hs : PyNum.addSame a.amount b.amount with
      | none =>
        have ht := (addSame_eq_none_iff _ _).mp hs
        simp [Quantity.add, hu, hs, ht]
      | some n =>
        have ht : ¬a.amount.tag ≠ b.amount.tag := by
          intro hne
          rw [← addSame_eq_none_iff] at hne
          rw [hs] at hne; cases hne
        simp [Quantity.add, hu, hs, ht]
    · simp [Quantity.add, hu]
  · intro a b hu ht
    have hs : PyNum.addSame a.amount b.amount ≠ none :=
      fun hn => absurd ht ((addSame_eq_none_iff _ _).mp hn)
    cases hsome : PyNum.addSame a.amount b.amount with
    | none => exact absurd hsome hs
    | some n => exact ⟨⟨n, a.unit⟩, by simp [Quantity.add, hu, hsome]⟩
  · intro x y u
    simp [Quantity.add, PyNum.addSame]
  · exact ⟨.unitMismatch (some ("grams".toList)) (some ("cups".toList)), by decide⟩

/-- C5 witness: the characterization applied at concrete quantities. -/
theorem claim5_quantityAdd_w :
    (∃ e, Quantity.add ⟨.int 1, some ("grams".toList)⟩ ⟨.int 1, some ("cups".toList)⟩
        = .error e) ∧
    (∃ c, Quantity.add ⟨.int 1, none⟩ ⟨.int 2, none⟩ = .ok c) :=
  ⟨(claim5_quantityAdd.1 ⟨.int 1, some ("grams".toList)⟩ ⟨.int 1, some ("cups".toList)⟩).mpr
      (by decide),
   claim5_quantityAdd.2.1 ⟨.int 1, none⟩ ⟨.int 2, none⟩ rfl rfl⟩

/-- C6: a braced amount that is non-empty but fails numeric parsing under its
selected representation makes the quantity parser raise `MalformedQuantity`
naming the fragment; an empty or absent amount yields no quantity and no
error; numeric parsing follows Python, accepting digit-group underscores and
whitespace around the fraction slash; a parse that returns a Recipe
therefore contains no such fragment
(and conversely a malformed fragment means no Recipe is returned), and on a
concrete malformed amount the parse fails with exactly that error. -/
theorem claim6_malformedQuantity :
    (getQuantity none = .ok none) ∧
    (∀ u, getQuantity (some ([], u)) = .ok none) ∧
    (∀ a u, a ≠ [] → amountMalformed a = true →
       getQuantity (some (a, u)) = .error (.malformedQuantity a)) ∧
    (∀ a u, a ≠ [] → amountMalformed a = false →
       ∃ q, getQuantity (some (a, u)) = .ok (some q)) ∧
    (getQuantity (some (("1_0".toList), ([] : List Char))) =
       .ok (some ⟨.int 10, none⟩)) ∧
    (getQuantity (some (("3 / 4".toList), ("cup".toList))) =
       .ok (some ⟨.frac (3 / 4 : ℚ), some ("cup".toList)⟩)) ∧
    (getQuantity (some (("1_0.5".toList), ([] : List Char))) =
       .ok (some ⟨.float (21 / 2 : ℚ), none⟩)) ∧
    (∀ raw r, Recipe.parse raw = .ok r →
       ∀ tok ∈ ((stepLinesP (paragraphsOf raw)).map ingrFindAll).flatten ++
           ((stepLinesP (paragraphsOf raw)).map timerFindAll).flatten,
         ∀ a u, firstAmountMatch (tokRawAmt tok) = some (a, u) → a ≠ [] →
           amountMalformed a = false) ∧
    (Recipe.parse ("Add @x{1.2.3%g}".toList) =
       .error (.malformedQuantity ("1.2.3".toList))) := by
  have hfrac : getQuantity (some (("3 / 4".toList), ("cup".toList))) =
      .ok (some ⟨.frac (3 / 4 : ℚ), some ("cup".toList)⟩) := by
    have e : (3 / 4 : ℚ) = mkRat 3 4 := by rw [Rat.mkRat_eq_div]; norm_num
    rw [e]
    decide
  have hfloat : getQuantity (some (("1_0.5".toList), ([] : List Char))) =
      .ok (some ⟨.float (21 / 2 : ℚ), none⟩) := by
    have e : (21 / 2 : ℚ) = mkRat 105 10 := by rw [Rat.mkRat_eq_div]; norm_num
    rw [e]
    decide
  refine ⟨rfl, fun u => rfl, fun a u ha hm => getQuantity_malformed u ha hm,
    fun a u ha hm => getQuantity_wellformed u ha hm, by decide, hfrac, hfloat,
    ?_, by decide⟩
  intro raw r hr tok htok a u hfam ha
  have hq : ∃ q, tokQuantity tok = .ok q := by
    obtain ⟨ing, st, cw, tm, hps, -⟩ := parse_ok hr
    obtain ⟨hst, -, ht, ms, hms, -⟩ := parseSteps_ok hps
    rcases List.mem_append.mp htok with hin | hti
    · obtain ⟨l, hl, htokl⟩ := List.mem_flatten.mp hin
      obtain ⟨rs, hrs, rfl⟩ := List.mem_map.mp hl
      obtain ⟨n, cur, i, hi⟩ := extractAll_ok_forall hms rs hrs tok htokl
      exact ⟨i.quantity, ingrParse_ok_tokQuantity hi⟩
    · have := mapM_ok_forall ht tok hti
      obtain ⟨t, htp⟩ := this
      exact ⟨t.quantity, timerParse_ok_tokQuantity htp⟩
  obtain ⟨q, hq⟩ := hq
  by_contra hmal
  rw [Bool.not_eq_false] at hmal
  rw [tokQuantity, hfam, getQuantity_malformed u ha hmal] at hq
  cases hq

/-- C6 witness: the malformed and well-formed characterizations at concrete
fragments. -/
theorem claim6_malformedQuantity_w :
    (getQuantity (some (("ab".toList), ("g".toList))) =
       .error (.malformedQuantity ("ab".toList))) ∧
    (∃ q, getQuantity (some (("12".toList), ("g".toList))) = .ok (some q)) :=
  ⟨claim6_malformedQuantity.2.2.1 ("ab".toList) ("g".toList) (by decide) (by decide),
   claim6_malformedQuantity.2.2.2.1 ("12".toList) ("g".toList) (by decide) (by decide)⟩

/-- C7: every `>>` line is parsed against `>> key : value` with both sides
trimmed; a later value for the same key overwrites the earlier one; a `>>`
line not matching the shape is dropped; the two example lines yield exactly
the claimed metadata. -/
theorem claim7_metadata :
    (Recipe.parse (">> time: 15 mins\n>>  weird spacing  :   every where".toList) =
       .ok ⟨[(("time".toList), ("15 mins".toList)),
             (("weird spacing".toList), ("every where".toList))], [], [], [], []⟩) ∧
    (Recipe.parse (">> no colon here\n>> time: 15 mins\n>> time: 20 mins".toList) =
       .ok ⟨[(("time".toList), ("20 mins".toList))], [], [], [], []⟩) ∧
    (∀ lines line k v, extractMetadata line = some (k, v) →
       metaLookup (buildMetadata (lines ++ [line])) k = some v) ∧
    (∀ lines line, extractMetadata line = none →
       buildMetadata (lines ++ [line]) = buildMetadata lines) := by
  refine ⟨by decide, by decide, ?_, ?_⟩
  · intro lines line k v h
    rw [buildMetadata_append_match h]
    exact metaLookup_upsert_self _ _ _
  · intro lines line h
    exact buildMetadata_append_none h

/-- C7 witness: the overwrite and drop clauses at concrete lines. -/
theorem claim7_metadata_w :
    (metaLookup (buildMetadata ([ ">> k : old".toList ] ++ [ ">> k : new".toList ]))
       ("k".toList) = some ("new".toList)) ∧
    (buildMetadata ([ ">> k : v".toList ] ++ [ ">> nope".toList ]) =
       buildMetadata [ ">> k : v".toList ]) :=
  ⟨claim7_metadata.2.2.1 [ ">> k : old".toList ] (">> k : new".toList) ("k".toList)
     ("new".toList) (by decide),
   claim7_metadata.2.2.2 [ ">> k : v".toList ] (">> nope".toList) (by decide)⟩

/-- C8: cookware and timers are never deduplicated — on every successful
parse the cookware list is exactly the concatenation of the per-step scans
(one entry per textual mention, step by step, left to right) and the timer
list is the elementwise parse of the concatenated per-step timer matches, so
it has one entry per mention in the same scan order; two `#pan` mentions
yield two entries. -/
theorem claim8_noDedup :
    (∀ raw r, Recipe.parse raw = .ok r →
       r.cookware = ((stepLinesP (paragraphsOf raw)).map cookFindAll).flatten ∧
       (((stepLinesP (paragraphsOf raw)).map timerFindAll).flatten.mapM Timer.parse
          = .ok r.timers) ∧
       r.timers.length =
         ((stepLinesP (paragraphsOf raw)).map timerFindAll).flatten.length) ∧
    (∃ r, Recipe.parse ("Use #pan then #pan and ~a and ~a".toList) = .ok r ∧
       r.cookware = [ "pan".toList, "pan".toList ] ∧
       r.timers = [⟨ "a".toList, none⟩, ⟨ "a".toList, none⟩]) := by
  constructor
  · intro raw r hr
    obtain ⟨ing, st, cw, tm, hps, rfl⟩ := parse_ok hr
    obtain ⟨hst, hcw, ht, -⟩ := parseSteps_ok hps
    exact ⟨hcw, ht, mapM_ok_length ht⟩
  · exact ⟨⟨[], [], [ "Use pan then pan and ~a and ~a".toList ],
      [ "pan".toList, "pan".toList ], [⟨ "a".toList, none⟩, ⟨ "a".toList, none⟩]⟩,
      by decide, rfl, rfl⟩

/-- C8 witness: the structural clause applied to a concrete parse. -/
theorem claim8_noDedup_w :
    (⟨[], [], [ "two pan mentions pan".toList ], [ "pan".toList, "pan".toList ], []⟩
        : Recipe).cookware =
      ((stepLinesP (paragraphsOf ("two #pan mentions #pan".toList))).map
        cookFindAll).flatten ∧
    (((stepLinesP (paragraphsOf ("two #pan mentions #pan".toList))).map
        timerFindAll).flatten.mapM Timer.parse =
      .ok (⟨[], [], [ "two pan mentions pan".toList ],
        [ "pan".toList, "pan".toList ], []⟩ : Recipe).timers) ∧
    (⟨[], [], [ "two pan mentions pan".toList ], [ "pan".toList, "pan".toList ], []⟩
        : Recipe).timers.length =
      ((stepLinesP (paragraphsOf ("two #pan mentions #pan".toList))).map
        timerFindAll).flatten.length :=
  claim8_noDedup.1 ("two #pan mentions #pan".toList) _ (by decide)

/-- C10: a paragraph line starting with `>>` contributes nothing to the
steps, ingredients, cookware or timers of a successful parse — removing it
from the paragraph list leaves all four components unchanged, whatever
well-formed marks the line contains. -/
theorem claim10_metaInert :
    ∀ raw pre m post r,
      paragraphsOf raw = pre ++ m :: post → isMetaLine m = true →
      Recipe.parse raw = .ok r →
      ∃ st ing cw tm, parseSteps (stepLinesP (pre ++ post)) = .ok (ing, st, cw, tm) ∧
        r.steps = st ∧ r.ingredients = ing ∧ r.cookware = cw ∧ r.timers = tm := by
  intro raw pre m post r hp hm hr
  have hsl : stepLinesP (pre ++ m :: post) = stepLinesP (pre ++ post) := by
    simp [stepLinesP, List.filter_append, hm]
  obtain ⟨ing, st, cw, tm, hps, rfl⟩ := parse_ok hr
  rw [hp, hsl] at hps
  exact ⟨st, ing, cw, tm, hps, rfl, rfl, rfl, rfl⟩

/-- C10 witness: a metadata line full of marks leaves the step-derived
components those of the remaining paragraphs. -/
theorem claim10_metaInert_w :
    ∃ st ing cw tm,
      parseSteps (stepLinesP ([] ++ [ "plain step".toList ])) = .ok (ing, st, cw, tm) ∧
      (⟨[(("k".toList), ("@a and #b and ~\x7b1%x\x7d".toList))], [],
         [ "plain step".toList ], [], []⟩ : Recipe).steps = st ∧
      (⟨[(("k".toList), ("@a and #b and ~\x7b1%x\x7d".toList))], [],
         [ "plain step".toList ], [], []⟩ : Recipe).ingredients = ing ∧
      (⟨[(("k".toList), ("@a and #b and ~\x7b1%x\x7d".toList))], [],
         [ "plain step".toList ], [], []⟩ : Recipe).cookware = cw ∧
      (⟨[(("k".toList), ("@a and #b and ~\x7b1%x\x7d".toList))], [],
         [ "plain step".toList ], [], []⟩ : Recipe).timers = tm :=
  claim10_metaInert (">> k: @a and #b and ~\x7b1%x\x7d\nplain step".toList)
    [] (">> k: @a and #b and ~\x7b1%x\x7d".toList) [ "plain step".toList ] _
    (by decide) (by decide) (by decide)

/-- C9: whenever span resolution succeeds, the recorded mention spans are
pairwise non-overlapping within a single rendered step line — each mention
ends no later than any later same-line mention starts, even for repeated
names — and every span has its start at or before its end. -/
theorem claim9_disjointSpans :
    ∀ raw ms, extractAll ((stepLinesP (paragraphsOf raw)).map renderStep)
        (stepLinesP (paragraphsOf raw)) 0 [] = .ok ms →
      ms.Pairwise SpanOrdered ∧ ∀ a ∈ ms, a.location.2.1 ≤ a.location.2.2 := by
  intro raw ms h
  exact extractAll_inv h List.Pairwise.nil (fun a ha => absurd ha (List.not_mem_nil a))
    (fun a ha => absurd ha (List.not_mem_nil a))

/-- C9 witness: two mentions of the same name on one line get disjoint
spans. -/
theorem claim9_disjointSpans_w :
    ([⟨ "salt".toList, (0, 4, 8), none⟩,
      ⟨ "salt".toList, (0, 13, 17), some ⟨.int 1, some ("g".toList)⟩⟩]
        : List Ingredient).Pairwise SpanOrdered ∧
    ∀ a ∈ ([⟨ "salt".toList, (0, 4, 8), none⟩,
        ⟨ "salt".toList, (0, 13, 17), some ⟨.int 1, some ("g".toList)⟩⟩]
          : List Ingredient),
      a.location.2.1 ≤ a.location.2.2 :=
  claim9_disjointSpans ("mix @salt and @salt{1%g}".toList) _ (by decide)

/-- C4: on every successful parse the ingredient list has one entry per
distinct mention name, ordered by first appearance in the scan (the mention
list is produced step by step, left to right); each entry merges all the
mentions of its name, keeping the first mention's location and summing the
quantities with `add_optional` (absent+present = present, absent+absent =
absent). -/
theorem claim4_dedupIngredients :
    ∀ raw r, Recipe.parse raw = .ok r →
      ∃ ms, extractAll ((stepLinesP (paragraphsOf raw)).map renderStep)
          (stepLinesP (paragraphsOf raw)) 0 [] = .ok ms ∧
        r.ingredients.map (fun i => i.name) = dedupFirst (ms.map (fun m => m.name)) ∧
        ∀ i ∈ r.ingredients, ∃ g1 grest,
          ms.filter (fun m => m.name == i.name) = g1 :: grest ∧
          mergeGroup g1 grest = .ok i ∧ i.location = g1.location ∧
          sumQuantities g1.quantity (grest.map (fun m => m.quantity)) = .ok i.quantity := by
  intro raw r hr
  obtain ⟨ing, st, cw, tm, hps, rfl⟩ := parse_ok hr
  obtain ⟨-, -, -, ms, hms, hdd⟩ := parseSteps_ok hps
  obtain ⟨h1, h2⟩ := removeDuplicates_spec hdd
  refine ⟨ms, hms, h1, ?_⟩
  intro i hi
  obtain ⟨g1, grest, hgeq, hm⟩ := h2 i hi
  obtain ⟨hn, hl, hq⟩ := mergeGroup_ok hm
  exact ⟨g1, grest, hgeq, hm, hl, hq⟩

/-- C4 witness: two same-name mentions merge into one entry with the first
location and the summed quantity. -/
theorem claim4_dedupIngredients_w :
    ∃ ms, extractAll
        ((stepLinesP (paragraphsOf ("Add @salt{1%g} and @salt{2%g}".toList))).map
          renderStep)
        (stepLinesP (paragraphsOf ("Add @salt{1%g} and @salt{2%g}".toList))) 0 []
        = .ok ms ∧
      (⟨[], [⟨ "salt".toList, (0, 4, 8), some ⟨.int 3, some ("g".toList)⟩⟩],
        [ "Add salt and salt".toList ], [], []⟩ : Recipe).ingredients.map
          (fun i => i.name) = dedupFirst (ms.map (fun m => m.name)) ∧
      ∀ i ∈ (⟨[], [⟨ "salt".toList, (0, 4, 8), some ⟨.int 3, some ("g".toList)⟩⟩],
          [ "Add salt and salt".toList ], [], []⟩ : Recipe).ingredients,
        ∃ g1 grest,
          ms.filter (fun m => m.name == i.name) = g1 :: grest ∧
          mergeGroup g1 grest = .ok i ∧ i.location = g1.location ∧
          sumQuantities g1.quantity (grest.map (fun m => m.quantity)) = .ok i.quantity :=
  claim4_dedupIngredients ("Add @salt{1%g} and @salt{2%g}".toList) _ (by decide)

/-- C2 counterexample: rendering does not replace the unbraced timer form —
"wait ~forever" is extracted as a timer yet its step text keeps the `~` sigil
— and a braced timer with an entirely absent quantity is replaced by a single
space, not by empty text: "wait ~{} done" renders with three spaces, not the
two the claim predicts. -/
theorem claim2_counterexample :
    (Recipe.parse ("wait ~forever".toList) =
       .ok ⟨[], [], [ "wait ~forever".toList ], [], [⟨ "forever".toList, none⟩]⟩) ∧
    ('~' ∈ ("wait ~forever".toList)) ∧
    (Recipe.parse ("wait ~{} done".toList) =
       .ok ⟨[], [], [ "wait   done".toList ], [], [⟨[], none⟩]⟩) ∧
    ("wait   done".toList ≠ "wait  done".toList) := by
  decide

/-- C2 amended: the rendered step text replaces only complete braced timer
forms; the replacement is the amount and the unit joined by one space, with
an absent component contributing empty text — so a braced timer with
entirely absent quantity is replaced by a single space, not by empty text —
while any `~` whose following text does not form a complete braced group
(in particular the unbraced `~word` timer, even when more text follows the
word) is left verbatim, sigil included; rendering applies this timer
substitution and then the ingredient/cookware substitution. -/
theorem claim2_timerRendering :
    (∀ s, renderStep s = icSub (timerSub s)) ∧
    (∀ pre post, '~' ∉ pre → timerSub (pre ++ post) = pre ++ timerSub post) ∧
    (∀ rest a u r, timerSubMatch rest = some (a, u, r) →
       timerSub ('~' :: rest) = a ++ ' ' :: (u ++ timerSub r)) ∧
    (∀ rest, timerSubMatch rest = none → timerSub ('~' :: rest) = '~' :: timerSub rest) ∧
    (∀ name amt u post, (∀ c ∈ name, isNameChar c = true) →
       (∀ c ∈ amt, (c = '}' ∨ c = '%') → False) → (∀ c ∈ u, c ≠ '}') → u ≠ [] →
       timerSub ('~' :: (name ++ '{' :: (amt ++ '%' :: (u ++ '}' :: post)))) =
         amt ++ ' ' :: (u ++ timerSub post)) ∧
    (∀ name amt post, (∀ c ∈ name, isNameChar c = true) →
       (∀ c ∈ amt, (c = '}' ∨ c = '%') → False) →
       timerSub ('~' :: (name ++ '{' :: (amt ++ '}' :: post))) =
         amt ++ ' ' :: timerSub post) ∧
    (∀ run post, (∀ c ∈ run, isNameChar c = true) →
       (∀ c, post.head? = some c → ¬(isNameChar c = true ∨ c = '{')) →
       timerSub ('~' :: (run ++ post)) = '~' :: (run ++ timerSub post)) := by
  refine ⟨fun s => rfl, timerSub_append_no_tilde,
    fun rest a u r h => timerSub_tilde_match h,
    fun rest h => timerSub_tilde_none h, ?_, ?_, ?_⟩
  · intro name amt u post hn ha hu hune
    exact timerSub_tilde_match (timerSubMatch_exact_unit hn ha hu hune)
  · intro name amt post hn ha
    have h : timerSub ('~' :: (name ++ '{' :: (amt ++ '}' :: post))) =
        amt ++ ' ' :: (([] : List Char) ++ timerSub post) :=
      timerSub_tilde_match (timerSubMatch_exact_nounit hn ha)
    simpa using h
  · intro run post hr hpost
    rw [timerSub_tilde_none (timerSubMatch_word_none hr hpost)]
    rw [timerSub_append_no_tilde run post (fun hm => absurd (hr '~' hm) (by decide))]

/-- C2 witness: the braced rule at a concrete timer and the verbatim rule at
a concrete unbraced timer whose name run, spaces included, extends to the
end of the line. -/
theorem claim2_timerRendering_w :
    (timerSub ('~' :: (([] : List Char) ++ '{' ::
        (("10".toList) ++ '%' :: (("minutes".toList) ++ '}' :: ([] : List Char))))) =
      ("10".toList) ++ ' ' :: (("minutes".toList) ++ timerSub [])) ∧
    (timerSub ('~' :: (("forever done".toList) ++ ([] : List Char))) =
      '~' :: (("forever done".toList) ++ timerSub [])) :=
  ⟨claim2_timerRendering.2.2.2.2.1 [] ("10".toList) ("minutes".toList) []
     (by decide) (by decide) (by decide) (by decide),
   claim2_timerRendering.2.2.2.2.2.2 ("forever done".toList) []
     (by decide) (fun c hc => by cases hc)⟩

end Cooklang
